import Mathlib

/-!
Verification of the `bcut` byte-range slicer.

The development shallowly embeds the three source files:

* `src/main.rs` — the regex-based `Range::from_str` and the input
  positioner `prepare_input` / `io_copy`;
* `src/range.rs` — the nom parser-combinator `Range::from_str`;
* `src/rangeparse.rs` — the `Suffix` / `Number` byte-count model with
  `bytes_u128`, `PartialEq` and `normalize`.

Rust machine integers are modelled as `Nat` with explicit `% 2^w`
reductions exactly where the Rust code can overflow or truncate; checked
arithmetic is modelled with `Option`; fallible functions return
`Option`/`Except`.
-/

deriving instance DecidableEq for Except

namespace Bcut

/-- `u64::MAX`. -/
def U64_MAX : Nat := 2 ^ 64 - 1

/-- `i64::MAX`. -/
def I64_MAX : Nat := 2 ^ 63 - 1

/-- `u64::checked_sub`: `none` exactly when the subtraction would underflow. -/
def checked_sub (a b : Nat) : Option Nat :=
  if b ≤ a then some (a - b) else none

/-- `u64::checked_add`: `none` exactly when the sum exceeds `u64::MAX`. -/
def checked_add_u64 (a b : Nat) : Option Nat :=
  if a + b ≤ U64_MAX then some (a + b) else none

/-- `struct Range { start: u64, count: Option<u64> }`.  Both `main.rs` and
`range.rs` declare this struct with identical fields; a single Lean
structure models both. -/
structure Range where
  start : Nat
  count : Option Nat
deriving DecidableEq, Repr

/-! ## Rust numeric string conversion

`u64::from_str_radix` / `str::parse::<u64>`: an optional leading `'+'`
sign, then one or more digits of the radix (via `char::to_digit`), with
checked accumulation that fails once the value would exceed `u64::MAX`. -/

/-- `char::to_digit(radix)`. -/
def digitVal (radix : Nat) (c : Char) : Option Nat :=
  if c.isDigit then
    if c.toNat - '0'.toNat < radix then some (c.toNat - '0'.toNat) else none
  else if 'a' ≤ c && c ≤ 'z' then
    if c.toNat - 'a'.toNat + 10 < radix then some (c.toNat - 'a'.toNat + 10) else none
  else if 'A' ≤ c && c ≤ 'Z' then
    if c.toNat - 'A'.toNat + 10 < radix then some (c.toNat - 'A'.toNat + 10) else none
  else none

/-- The digit-accumulation loop of `from_str_radix`: each step is
`acc * radix + d` with a `u64` overflow check. -/
def parseDigits (radix : Nat) : Nat → List Char → Option Nat
  | acc, [] => some acc
  | acc, c :: rest =>
    match digitVal radix c with
    | none => none
    | some d =>
      if acc * radix + d ≤ U64_MAX then parseDigits radix (acc * radix + d) rest
      else none

/-- `u64::from_str_radix(s, radix)` (and `s.parse::<u64>()` for radix 10). -/
def rustParseU64Radix (radix : Nat) (cs : List Char) : Option Nat :=
  match (match cs with | '+' :: rest => rest | _ => cs) with
  | [] => none
  | d :: ds => parseDigits radix 0 (d :: ds)

/-! ## `rangeparse.rs`: `Suffix` and `Number` -/

/-- `enum Suffix` (rangeparse.rs). -/
inductive Suffix
  | B | KB | MB | GB | TB | Ki | Mi | Gi | Ti
deriving DecidableEq, Repr

/-- `Suffix::multiplier`: the `#[repr(u64)]` discriminants.  The binary
multipliers are written in the source as `1 << 10` … `1 << 40`; the
decimal ones as `1_000` … `1_000_000_000_000`. -/
def Suffix.multiplier : Suffix → Nat
  | .B => 1
  | .KB => 1000
  | .MB => 1000000
  | .GB => 1000000000
  | .TB => 1000000000000
  | .Ki => 1024
  | .Mi => 1048576
  | .Gi => 1073741824
  | .Ti => 1099511627776

/-- `struct Number { value: u64, suffix: Suffix }`.  The `value` field is a
`u64`, so theorems about `Number` carry a `value < 2^64` hypothesis where
that bound matters. -/
structure Number where
  value : Nat
  suffix : Suffix
deriving DecidableEq, Repr

/-- `Number::bytes_u128`: `(value as u128) * (multiplier as u128)`, a
`u128` multiplication, hence reduced `% 2^128`. -/
def Number.bytes_u128 (n : Number) : Nat :=
  (n.value * n.suffix.multiplier) % 2 ^ 128

/-- `impl PartialEq for Number` (rangeparse.rs lines 107-115): equal
suffixes compare the raw values, different suffixes compare the expanded
`u128` byte counts. -/
def Number.eq (a b : Number) : Bool :=
  if a.suffix = b.suffix then a.value == b.value
  else a.bytes_u128 == b.bytes_u128

/-- The suffix-selection `if` chain inside `Number::normalize`
(rangeparse.rs lines 167-176), applied to the `u128` byte count. -/
def normalizeSuffix (val : Nat) : Suffix :=
  if val % 1099511627776 = 0 then .Ti          -- 1 << 40
  else if val % 1000000000000 = 0 then .TB
  else if val % 1073741824 = 0 then .Gi        -- 1 << 30
  else if val % 1000000000 = 0 then .GB
  else if val % 1048576 = 0 then .Mi           -- 1 << 20
  else if val % 1000000 = 0 then .MB
  else if val % 1024 = 0 then .Ki              -- 1 << 10
  else if val % 1000 = 0 then .KB
  else .B

/-- `Number::normalize` (rangeparse.rs lines 160-180).  The final
`as u64` narrowing cast of `val / multiplier` is modelled by `% 2^64`. -/
def Number.normalize (n : Number) : Number :=
  if n.value = 0 then ⟨0, .B⟩
  else
    let val := n.bytes_u128
    let suffix := normalizeSuffix val
    ⟨(val / suffix.multiplier) % 2 ^ 64, suffix⟩

/-- The descending try-order of `normalize`'s suffix search, as the spec
describes it ("Ti, TB, Gi, GB, Mi, MB, Ki, KB").  Spec-side definition,
used to compare `normalizeSuffix` against the spec's words. -/
def suffixSearchOrder : List Suffix := [.Ti, .TB, .Gi, .GB, .Mi, .MB, .Ki, .KB]

/-- Modelled from the spec's words: "selects the first scale class, tried
in descending magnitude order …, whose multiplier evenly divides the
expanded byte count, falling back to plain bytes when none divides
evenly".  To be compared with the source-derived `normalizeSuffix`. -/
def specSelectSuffix (bytes : Nat) : Suffix :=
  (suffixSearchOrder.find? fun s => bytes % s.multiplier == 0).getD .B

/-! ## `main.rs`: the regex-based `Range::from_str`

The regex is
`^(?P<start>(?:0x)?[[:xdigit:]_]+)?(?P<sep>[+-])(?P<end>(?:0x)?[[:xdigit:]_]+)?$`.
The character classes of the `start`/`end` groups (`[[:xdigit:]_]`, plus
the literal prefix `0x`) are disjoint from the `sep` class `[+-]`, and the
pattern is anchored on both ends, so an input matches iff it contains
exactly one `'+'`/`'-'` character, and the substrings before and after
that character are each empty or match `(?:0x)?[[:xdigit:]_]+`.  The
capture groups are exactly those two substrings (`none` when empty). -/

/-- The `[+-]` class of the `sep` group. -/
def isSepChar (c : Char) : Bool := c = '-' || c = '+'

/-- The `[[:xdigit:]_]` class: ASCII hex digits (either case) or `'_'`. -/
def isXdigitUnd (c : Char) : Bool :=
  c.isDigit || ('a' ≤ c && c ≤ 'f') || ('A' ≤ c && c ≤ 'F') || c = '_'

/-- Whether a string matches the number-token pattern
`(?:0x)?[[:xdigit:]_]+` (the prefix is the two literal characters `'0'`
`'x'`; only lowercase appears in the regex). -/
def matchesNumTok (cs : List Char) : Bool :=
  (match cs with
   | '0' :: 'x' :: rest => !rest.isEmpty && rest.all isXdigitUnd
   | _ => false)
  || (!cs.isEmpty && cs.all isXdigitUnd)

/-- The anchored regex match with its three capture groups, per the
analysis above: exactly one separator character, both sides empty or
number tokens. -/
def regexCaptures (cs : List Char) :
    Option (Option (List Char) × Char × Option (List Char)) :=
  if cs.countP (fun c => isSepChar c) = 1 then
    let pre := cs.takeWhile fun c => !isSepChar c
    match cs.dropWhile fun c => !isSepChar c with
    | sep :: post =>
      if (pre.isEmpty || matchesNumTok pre) && (post.isEmpty || matchesNumTok post) then
        some (if pre.isEmpty then none else some pre, sep,
              if post.isEmpty then none else some post)
      else none
    | [] => none
  else none

/-- The inner helper `parse_number` of `main.rs`'s `from_str`: strip all
underscores (`s.replace('_', "")`), then parse as hex when the result
starts with the lowercase `"0x"` (`strip_prefix("0x")`), else as
decimal. -/
def parse_number (cs : List Char) : Option Nat :=
  match cs.filter (fun c => c ≠ '_') with
  | '0' :: 'x' :: rest => rustParseU64Radix 16 rest
  | s => rustParseU64Radix 10 s

/-- The distinct error conditions that `main.rs`'s `from_str` surfaces
(as `anyhow` messages in the source). -/
inductive MainErr
  | malformed          -- "invalid format"
  | invalidStart       -- "invalid range start '…'"
  | invalidEnd         -- "invalid range end '…'"
  | startTooLarge      -- "range start … exceeds i64::MAX"
  | endBeforeStart     -- "range's end can't be less than start"
  | byteCountOverflow  -- "byte count overflow"
deriving DecidableEq, Repr

/-- Parsing the optional `start` capture: a missing group defaults to 0
(`unwrap_or(0)`), a failing conversion is an error. -/
def parseStartVal : Option (List Char) → Except MainErr Nat
  | none => .ok 0
  | some t =>
    match parse_number t with
    | some v => .ok v
    | none => .error .invalidStart

/-- Parsing the optional `end` capture. -/
def parseEndVal : Option (List Char) → Except MainErr (Option Nat)
  | none => .ok none
  | some t =>
    match parse_number t with
    | some v => .ok (some v)
    | none => .error .invalidEnd

/-- The `match (sep, end)` computing `count` (main.rs lines 99-117):
no end number reads to EOF; `'+'` takes the end number as the count;
`'-'` computes the inclusive count `end - start + 1` with a checked
subtraction followed by a checked `+ 1`.  The source's final arm is
`unreachable!` — `regexCaptures` only ever produces `'+'` or `'-'`. -/
def mainCount (sep : Char) (start : Nat) : Option Nat → Except MainErr (Option Nat)
  | none => .ok none
  | some e =>
    if sep = '+' then .ok (some e)
    else if sep = '-' then
      match checked_sub e start with
      | none => .error .endBeforeStart
      | some d =>
        match checked_add_u64 d 1 with
        | none => .error .byteCountOverflow
        | some c => .ok (some c)
    else .ok none  -- unreachable! in the source

/-- `impl FromStr for Range` in `main.rs` (lines 53-121): regex match,
parse `start` (default 0), `ensure!(start <= i64::MAX)`, parse `end`,
compute `count`. -/
def mainFromStr (cs : List Char) : Except MainErr Range :=
  match regexCaptures cs with
  | none => .error .malformed
  | some (startTok, sep, endTok) =>
    match parseStartVal startTok with
    | .error e => .error e
    | .ok start =>
      if start > I64_MAX then .error .startTooLarge
      else
        match parseEndVal endTok with
        | .error e => .error e
        | .ok endv =>
          match mainCount sep start endv with
          | .error e => .error e
          | .ok count => .ok ⟨start, count⟩

/-! ## `range.rs`: the nom parser-combinator `Range::from_str`

nom parsers are deterministic maximal-munch recognizers; a parser is
modelled as `List Char → Option (List Char × α)` returning the remaining
input and the produced value, `none` on failure. -/

/-- nom's `hex_digit1` character class: ASCII `0-9a-fA-F`. -/
def isNomHexDigit (c : Char) : Bool :=
  c.isDigit || ('a' ≤ c && c ≤ 'f') || ('A' ≤ c && c ≤ 'F')

/-- nom's `digit1` character class: ASCII `0-9`. -/
def isNomDigit (c : Char) : Bool := c.isDigit

/-- `recognize(many1(terminated(digit1-like, many0(char '_'))))`: one or
more maximal digit groups each followed by any number of underscores;
returns `(rest, recognized)`.  The loop consumes at least one character
per iteration, so recursion is driven by a fuel argument that the wrapper
`recognizeRun` sets to more than the input length. -/
def digitRunFuel (isD : Char → Bool) : Nat → List Char → Option (List Char × List Char)
  | 0, _ => none
  | fuel + 1, cs =>
    let d := cs.takeWhile isD
    if d.isEmpty then none
    else
      let r1 := cs.dropWhile isD
      let us := r1.takeWhile fun c => c = '_'
      let r2 := r1.dropWhile fun c => c = '_'
      match digitRunFuel isD fuel r2 with
      | some (rest, consumed) => some (rest, d ++ us ++ consumed)
      | none => some (r2, d ++ us)

/-- `recognize(many1(terminated(digit1-like, many0(char '_'))))`. -/
def recognizeRun (isD : Char → Bool) (cs : List Char) : Option (List Char × List Char) :=
  digitRunFuel isD (cs.length + 1) cs

/-- The body of `hex` after the `0x`/`0X` prefix has been consumed:
recognize the digit run, then `map_res` strips underscores and converts
base 16 (`u64::from_str_radix(&out.replace('_', ""), 16)`); a conversion
failure fails the whole parser. -/
def hexTail (rest : List Char) : Option (List Char × Nat) :=
  match recognizeRun isNomHexDigit rest with
  | none => none
  | some (rest', out) =>
    match rustParseU64Radix 16 (out.filter fun c => c ≠ '_') with
    | some v => some (rest', v)
    | none => none

/-- `fn hex` (range.rs lines 43-60): `preceded(alt((tag("0x"), tag("0X"))), …)`. -/
def hex (cs : List Char) : Option (List Char × Nat) :=
  match cs with
  | '0' :: 'x' :: rest => hexTail rest
  | '0' :: 'X' :: rest => hexTail rest
  | _ => none

/-- `fn dec` (range.rs lines 63-68): like `hex` without the prefix, base 10. -/
def dec (cs : List Char) : Option (List Char × Nat) :=
  match recognizeRun isNomDigit cs with
  | none => none
  | some (rest', out) =>
    match rustParseU64Radix 10 (out.filter fun c => c ≠ '_') with
    | some v => some (rest', v)
    | none => none

/-- `fn number` (range.rs lines 71-73): `alt((hex, dec))`. -/
def number (cs : List Char) : Option (List Char × Nat) :=
  match hex cs with
  | some r => some r
  | none => dec cs

/-- `struct RangePieces { start, mode, end }` (the field `end` is a Lean
keyword, hence `pend`; likewise `pstart` for symmetry). -/
structure RangePieces where
  pstart : Option Nat
  mode : Char
  pend : Option Nat
deriving DecidableEq, Repr

/-- The `eof` step of `parse_range_pieces`: succeed only on empty rest. -/
def finishPieces (pstart : Option Nat) (mode : Char) (pend : Option Nat) :
    List Char → Option (List Char × RangePieces)
  | [] => some ([], ⟨pstart, mode, pend⟩)
  | _ :: _ => none

/-- The `one_of("-+")` step and everything after it. -/
def parseSepEnd (pstart : Option Nat) : List Char → Option (List Char × RangePieces)
  | [] => none
  | c :: rest =>
    if isSepChar c then
      match number rest with
      | some (cs2, v) => finishPieces pstart c (some v) cs2
      | none => finishPieces pstart c none rest
    else none

/-- `fn parse_range_pieces` (range.rs lines 84-91): `opt(number)`, then
`one_of("-+")`, then `opt(number)`, then `eof`. -/
def parse_range_pieces (cs : List Char) : Option (List Char × RangePieces) :=
  match number cs with
  | some (cs1, v) => parseSepEnd (some v) cs1
  | none => parseSepEnd none cs

/-- `enum ParseRangeError` of range.rs (the `Nom` variant's payload is
irrelevant to the claims and dropped). -/
inductive NomErr
  | parseError       -- ParseRangeError::Nom(…)
  | startOutOfBounds -- ParseRangeError::StartOutOfBounds
  | endBeforeStart   -- ParseRangeError::EndBeforeStart
  | overflow         -- ParseRangeError::Overflow
deriving DecidableEq, Repr

/-- The `match (pieces.mode, pieces.end)` of range.rs lines 106-124,
identical in shape to `mainCount`. -/
def nomCount (mode : Char) (start : Nat) : Option Nat → Except NomErr (Option Nat)
  | none => .ok none
  | some e =>
    if mode = '+' then .ok (some e)
    else if mode = '-' then
      match checked_sub e start with
      | none => .error .endBeforeStart
      | some d =>
        match checked_add_u64 d 1 with
        | none => .error .overflow
        | some c => .ok (some c)
    else .ok none  -- unreachable! in the source

/-- `impl FromStr for Range` in `range.rs` (lines 94-128): parse the
pieces, default `start` to 0, bound-check it, compute `count`. -/
def nomFromStr (cs : List Char) : Except NomErr Range :=
  match parse_range_pieces cs with
  | none => .error .parseError
  | some (_, p) =>
    if p.pstart.getD 0 > I64_MAX then .error .startOutOfBounds
    else
      match nomCount p.mode (p.pstart.getD 0) p.pend with
      | .error e => .error e
      | .ok count => .ok ⟨p.pstart.getD 0, count⟩

/-! ## `main.rs`: `io_copy` and `prepare_input` (the unix path)

An input handle is its not-yet-consumed byte stream plus its seek
capabilities.  A `read` of a file returns the requested number of bytes
(or whatever is left); a schedule of `Bool`s injects transient
`ErrorKind::Interrupted` failures (`true` = the next read is interrupted),
which `io_copy` handles with `continue`.  The schedule is finite: reads
beyond it succeed. -/

/-- An input handle: `seekable = false` makes a relative seek fail with
`ESPIPE` (a pipe/FIFO); `seekFault = true` makes it fail with some other
error. -/
structure Handle where
  rem : List Nat
  seekable : Bool
  seekFault : Bool
deriving DecidableEq, Repr

/-- Outcome of `file.seek(SeekFrom::Current(n))` for a forward `n`. -/
inductive SeekOutcome
  | seekOk (rem : List Nat)
  | notSupported   -- raw_os_error() == ESPIPE
  | otherFailure
deriving DecidableEq, Repr

/-- A relative forward seek: on a seekable handle it advances the cursor
(seeking past EOF is allowed and later reads just hit EOF, which dropping
more than the length models); a pipe reports `ESPIPE`. -/
def seekCurrent (h : Handle) (n : Nat) : SeekOutcome :=
  if h.seekable then
    if h.seekFault then .otherFailure else .seekOk (h.rem.drop n)
  else .notSupported

/-- `io_copy`'s transfer buffer size (`1024 * 1024`). -/
def BUF_SIZE : Nat := 1024 * 1024

/-- `fn io_copy` (main.rs lines 127-143), reading from an optionally
`Take`-limited (`limit = some l`) reader: loop reading up to
`min(BUF_SIZE, limit)` bytes, `continue` on an interrupted read, stop on a
0-byte read; returns the bytes written and the reader's leftover stream.
Each read consumes one schedule entry. -/
def io_copy_model : List Bool → Option Nat → List Nat → List Nat × List Nat
  | true :: sched, limit, rem => io_copy_model sched limit rem
  | sched, limit, rem =>
    let cap := match limit with
      | some l => min BUF_SIZE l
      | none => BUF_SIZE
    let chunk := rem.take cap
    if h : chunk.length = 0 then ([], rem)
    else
      let out := io_copy_model sched.tail
        (match limit with | some l => some (l - chunk.length) | none => none)
        (rem.drop chunk.length)
      (chunk ++ out.1, out.2)
termination_by sched _ rem => sched.length + rem.length
decreasing_by
  · simp only [List.length_cons]; omega
  · have h2 : sched.tail.length ≤ sched.length := by cases sched <;> simp
    unfold chunk at h
    simp only [List.length_drop, List.length_take] at *
    omega

/-- The positioning actions `prepare_input` performs, in order. -/
inductive Action
  | seek (n : Nat)   -- a relative-seek attempt of n bytes
  | skip (n : Nat)   -- n bytes read and discarded by the fallback
deriving DecidableEq, Repr

inductive PrepErr
  | positioning
deriving DecidableEq, Repr

/-- The byte source `prepare_input` returns: the positioned stream,
wrapped with `take(count)` when a count is present (`limit = count`). -/
structure Source where
  limit : Option Nat
  rem : List Nat
deriving DecidableEq, Repr

/-- `fn prepare_input` (main.rs lines 145-187, the `cfg(unix)` path, after
the handle is open): if `start != 0`, attempt the relative seek; on
`ESPIPE` fall back to draining `file.take(start)` into a sink via
`io_copy`; any other seek failure is returned; finally wrap with the
`count` bound.  Also returns the trace of positioning actions taken. -/
def prepare_input (r : Range) (h : Handle) (skipSched : List Bool) :
    List Action × Except PrepErr Source :=
  if r.start ≠ 0 then
    match seekCurrent h r.start with
    | .seekOk rem' => ([.seek r.start], .ok ⟨r.count, rem'⟩)
    | .notSupported =>
      let skipped := io_copy_model skipSched (some r.start) h.rem
      ([.seek r.start, .skip skipped.1.length], .ok ⟨r.count, skipped.2⟩)
    | .otherFailure => ([.seek r.start], .error .positioning)
  else ([], .ok ⟨r.count, h.rem⟩)

/-- Reading a prepared `Source` to exhaustion (the caller's `io_copy` into
the output), returning the produced bytes. -/
def drainSource (drainSched : List Bool) (s : Source) : List Nat :=
  (io_copy_model drainSched s.limit s.rem).1

/-- End-to-end: position the input per the range, then read everything the
bounded source yields. -/
def preparedBytes (r : Range) (h : Handle) (skipSched drainSched : List Bool) :
    Except PrepErr (List Nat) :=
  match (prepare_input r h skipSched).2 with
  | .ok s => .ok (drainSource drainSched s)
  | .error e => .error e

/-- Modelled from the spec's words (§4.2 contract): "the selected window
— the first byte produced is logical offset `start` of the original
stream", at most `count` bytes when present, to exhaustion otherwise. -/
def specWindow (r : Range) (data : List Nat) : List Nat :=
  match r.count with
  | some k => (data.drop r.start).take k
  | none => data.drop r.start

/-- `u64 → i64` conversion (`range.start.try_into()` at main.rs line 171):
succeeds exactly on values up to `i64::MAX`. -/
def i64TryFrom (n : Nat) : Option Int :=
  if n ≤ I64_MAX then some (Int.ofNat n) else none

/-! ## Theorems -/

theorem Suffix.multiplier_pos (s : Suffix) : 0 < s.multiplier := by
  cases s <;> decide

theorem Suffix.multiplier_le (s : Suffix) : s.multiplier ≤ 1099511627776 := by
  cases s <;> decide

/-- On a `u64` value the `u128` product cannot wrap. -/
theorem Number.bytes_lt (n : Number) (h : n.value < 2 ^ 64) :
    n.value * n.suffix.multiplier < 2 ^ 128 := by
  calc n.value * n.suffix.multiplier
      ≤ n.value * 1099511627776 := Nat.mul_le_mul_left _ (Suffix.multiplier_le _)
    _ < 2 ^ 64 * 1099511627776 := by
        exact (Nat.mul_lt_mul_right (by norm_num)).mpr h
    _ ≤ 2 ^ 128 := by norm_num

/-- `bytes_u128` is the exact mathematical product for `u64` values. -/
theorem Number.bytes_u128_eq (n : Number) (h : n.value < 2 ^ 64) :
    n.bytes_u128 = n.value * n.suffix.multiplier :=
  Nat.mod_eq_of_lt (n.bytes_lt h)

/-- The `if` chain of `normalize` computes exactly the spec's
first-divisor-in-descending-order selection. -/
theorem normalizeSuffix_eq_spec (v : Nat) : normalizeSuffix v = specSelectSuffix v := by
  unfold normalizeSuffix specSelectSuffix suffixSearchOrder
  split_ifs with h1 h2 h3 h4 h5 h6 h7 h8 <;> simp_all [Suffix.multiplier]

/-- The selected multiplier always divides the byte count. -/
theorem normalizeSuffix_dvd (v : Nat) : (normalizeSuffix v).multiplier ∣ v := by
  unfold normalizeSuffix
  split_ifs with h1 h2 h3 h4 h5 h6 h7 h8 <;>
    simp only [Suffix.multiplier] <;>
    first
      | exact Nat.dvd_of_mod_eq_zero (by assumption)
      | exact Nat.one_dvd v

/-- Any divisor among the nine multipliers is dominated by the selected
one: the descending search stops at or before the divisor's own slot. -/
theorem normalizeSuffix_ge (v : Nat) (s : Suffix) (hd : s.multiplier ∣ v) :
    s.multiplier ≤ (normalizeSuffix v).multiplier := by
  have hm : v % s.multiplier = 0 := Nat.mod_eq_zero_of_dvd hd
  cases s <;>
    simp only [Suffix.multiplier] at hm ⊢ <;>
    (unfold normalizeSuffix; split_ifs <;> simp only [Suffix.multiplier] <;> omega)

/-- C8: two `Number` literals compare equal (via `PartialEq`) exactly when
their expanded byte counts `value * multiplier` — exact `Nat` products,
which the `u128` arithmetic computes without overflow for `u64` values —
are equal; in particular `1024` bytes equals `1 Ki` and `1_048_576_000`
bytes equals `1000 Mi`. -/
theorem number_eq_iff_bytes_eq :
    (∀ a b : Number, a.value < 2 ^ 64 → b.value < 2 ^ 64 →
      (Number.eq a b = true ↔
        a.value * a.suffix.multiplier = b.value * b.suffix.multiplier))
    ∧ Number.eq ⟨1024, .B⟩ ⟨1, .Ki⟩ = true
    ∧ Number.eq ⟨1048576000, .B⟩ ⟨1000, .Mi⟩ = true := by
  refine ⟨?_, by decide, by decide⟩
  intro a b ha hb
  unfold Number.eq
  by_cases hs : a.suffix = b.suffix
  · simp only [hs, if_true, beq_iff_eq]
    constructor
    · intro hv; rw [hv]
    · intro hv
      exact Nat.eq_of_mul_eq_mul_right (Suffix.multiplier_pos b.suffix) hv
  · simp only [hs, if_false, beq_iff_eq, Number.bytes_u128_eq a ha, Number.bytes_u128_eq b hb]

theorem number_eq_iff_bytes_eq_witness :
    (1024 : Nat) < 2 ^ 64 ∧ (1 : Nat) < 2 ^ 64 ∧
      (Number.eq ⟨1024, .B⟩ ⟨1, .Ki⟩ = true ↔
        1024 * (Suffix.B).multiplier = 1 * (Suffix.Ki).multiplier) :=
  ⟨by norm_num, by norm_num,
    number_eq_iff_bytes_eq.1 ⟨1024, .B⟩ ⟨1, .Ki⟩ (by norm_num) (by norm_num)⟩

/-- C9: `normalize` maps a zero value to `0` plain bytes; for a nonzero
`Number` it selects the first suffix in the descending order
Ti, TB, Gi, GB, Mi, MB, Ki, KB whose multiplier divides the expanded byte
count, falling back to plain bytes (`specSelectSuffix`, written from the
spec's words); the search order is strictly descending in multiplier, so
an equally-dividing binary scale of larger magnitude beats a decimal
one. -/
theorem normalize_selects_first_divisor :
    (∀ n : Number, n.value = 0 → n.normalize = ⟨0, .B⟩)
    ∧ (∀ n : Number, n.value ≠ 0 → n.value < 2 ^ 64 →
        n.normalize.suffix = specSelectSuffix (n.value * n.suffix.multiplier))
    ∧ suffixSearchOrder.Pairwise (fun a b => b.multiplier < a.multiplier) := by
  refine ⟨?_, ?_, ?_⟩
  · intro n h0
    unfold Number.normalize
    rw [if_pos h0]
  · intro n h0 h64
    unfold Number.normalize
    rw [if_neg h0]
    simp only [Number.bytes_u128_eq n h64, normalizeSuffix_eq_spec]
  · simp [suffixSearchOrder, List.pairwise_cons, Suffix.multiplier]

theorem normalize_selects_first_divisor_witness :
    (Number.mk 1048576000 .B).value ≠ 0 ∧ (Number.mk 1048576000 .B).value < 2 ^ 64 ∧
      (Number.mk 1048576000 .B).normalize.suffix =
        specSelectSuffix (1048576000 * (Suffix.B).multiplier) :=
  ⟨by norm_num, by norm_num,
    normalize_selects_first_divisor.2.1 ⟨1048576000, .B⟩ (by norm_num) (by norm_num)⟩

/-- C10 counterexample: the claim's "the chosen suffix multiplier is
always at least the original suffix's multiplier" fails on the zero
value — `Number { value: 0, suffix: Ki }` normalizes to `0 B`, whose
multiplier 1 is smaller than Ki's 1024. -/
theorem normalize_multiplier_not_monotone_at_zero :
    ¬ (Number.mk 0 .Ki).suffix.multiplier ≤ (Number.mk 0 .Ki).normalize.suffix.multiplier := by
  decide

/-- C10 (amended): `normalize` preserves the expanded byte count, never
shrinks it through the `as u64` cast (the rescaled value is exactly
`bytes / chosen multiplier`, which is below `2^64`), yields a value field
at most the original, is idempotent, and — for nonzero values — picks a
multiplier at least the original suffix's. -/
theorem normalize_preserves_bytes :
    ∀ n : Number, n.value < 2 ^ 64 →
      (n.normalize.value * n.normalize.suffix.multiplier = n.value * n.suffix.multiplier)
      ∧ n.normalize.value ≤ n.value
      ∧ n.normalize.value = n.value * n.suffix.multiplier / n.normalize.suffix.multiplier
      ∧ n.value * n.suffix.multiplier / n.normalize.suffix.multiplier < 2 ^ 64
      ∧ (n.value ≠ 0 → n.suffix.multiplier ≤ n.normalize.suffix.multiplier)
      ∧ n.normalize.normalize = n.normalize := by
  intro n h64
  by_cases h0 : n.value = 0
  · have hn : n.normalize = ⟨0, .B⟩ := by unfold Number.normalize; rw [if_pos h0]
    rw [hn, h0]
    exact ⟨by simp, by simp, by simp [Suffix.multiplier], by simp [Suffix.multiplier],
      fun h => absurd rfl h, by decide⟩
  · -- nonzero case
    have hmul0 : 0 < n.suffix.multiplier := Suffix.multiplier_pos _
    have hvpos : 0 < n.value := Nat.pos_of_ne_zero h0
    set val := n.value * n.suffix.multiplier with hval
    have hvalpos : 0 < val := Nat.mul_pos hvpos hmul0
    have hb : n.bytes_u128 = val := Number.bytes_u128_eq n h64
    have hd : (normalizeSuffix val).multiplier ∣ val := normalizeSuffix_dvd val
    have hge : n.suffix.multiplier ≤ (normalizeSuffix val).multiplier :=
      normalizeSuffix_ge val n.suffix (Dvd.intro_left n.value rfl)
    have hq : val / n.suffix.multiplier = n.value := by
      rw [hval, Nat.mul_div_cancel _ hmul0]
    have hle : val / (normalizeSuffix val).multiplier ≤ n.value := by
      rw [← hq]
      exact Nat.div_le_div_left hge hmul0
    have hlt : val / (normalizeSuffix val).multiplier < 2 ^ 64 := lt_of_le_of_lt hle h64
    have hn : n.normalize = ⟨val / (normalizeSuffix val).multiplier, normalizeSuffix val⟩ := by
      unfold Number.normalize
      rw [if_neg h0]
      simp only [hb, Nat.mod_eq_of_lt hlt]
    have hprod : val / (normalizeSuffix val).multiplier * (normalizeSuffix val).multiplier = val :=
      Nat.div_mul_cancel hd
    refine ⟨by rw [hn]; exact hprod, by rw [hn]; exact hle, by rw [hn], by rw [hn]; exact hlt, fun _ => by rw [hn]; exact hge, ?_⟩
    -- idempotence
    have hqpos : 0 < val / (normalizeSuffix val).multiplier :=
      Nat.div_pos (Nat.le_of_dvd hvalpos hd) (Suffix.multiplier_pos _)
    rw [hn]
    unfold Number.normalize
    rw [if_neg (Nat.pos_iff_ne_zero.mp hqpos)]
    have hval128 : val < 2 ^ 128 := n.bytes_lt h64
    have hb2 : (Number.mk (val / (normalizeSuffix val).multiplier) (normalizeSuffix val)).bytes_u128 = val := by
      unfold Number.bytes_u128
      simp only [hprod]
      exact Nat.mod_eq_of_lt hval128
    simp only [hb2, Nat.mod_eq_of_lt hlt]

theorem normalize_preserves_bytes_witness :
    (Number.mk 1024 .Ki).value < 2 ^ 64 ∧
      (Number.mk 1024 .Ki).normalize.value * (Number.mk 1024 .Ki).normalize.suffix.multiplier =
        1024 * (Suffix.Ki).multiplier :=
  ⟨by norm_num, (normalize_preserves_bytes ⟨1024, .Ki⟩ (by norm_num)).1⟩

/-! ### Parser lemmas -/

/-- Values produced by the checked digit loop never exceed `u64::MAX`. -/
theorem parseDigits_le (radix : Nat) (cs : List Char) : ∀ acc v,
    parseDigits radix acc cs = some v → acc ≤ U64_MAX → v ≤ U64_MAX := by
  induction cs with
  | nil =>
    intro acc v h ha
    unfold parseDigits at h
    simp only [Option.some.injEq] at h
    omega
  | cons c rest ih =>
    intro acc v h ha
    unfold parseDigits at h
    split at h
    · exact absurd h (by simp)
    · split at h
      · next hb => exact ih _ _ h hb
      · exact absurd h (by simp)

theorem rustParseU64Radix_le (radix : Nat) (cs : List Char) (v : Nat)
    (h : rustParseU64Radix radix cs = some v) : v ≤ U64_MAX := by
  unfold rustParseU64Radix at h
  split at h
  · exact absurd h (by simp)
  · exact parseDigits_le radix _ 0 v h (by unfold U64_MAX; omega)

theorem parse_number_le (cs : List Char) (v : Nat) (h : parse_number cs = some v) :
    v ≤ U64_MAX := by
  unfold parse_number at h
  split at h <;> exact rustParseU64Radix_le _ _ _ h

theorem hex_le (cs rest : List Char) (v : Nat) (h : hex cs = some (rest, v)) : v ≤ U64_MAX := by
  unfold hex at h
  split at h <;>
    first
    | exact absurd h (by simp)
    | · unfold hexTail at h
        split at h
        · exact absurd h (by simp)
        · split at h
          · next hv =>
            simp only [Option.some.injEq, Prod.mk.injEq] at h
            exact h.2 ▸ rustParseU64Radix_le _ _ _ hv
          · exact absurd h (by simp)

theorem dec_le (cs rest : List Char) (v : Nat) (h : dec cs = some (rest, v)) : v ≤ U64_MAX := by
  unfold dec at h
  split at h
  · exact absurd h (by simp)
  · split at h
    · next hv =>
      simp only [Option.some.injEq, Prod.mk.injEq] at h
      exact h.2 ▸ rustParseU64Radix_le _ _ _ hv
    · exact absurd h (by simp)

theorem number_le (cs rest : List Char) (v : Nat) (h : number cs = some (rest, v)) :
    v ≤ U64_MAX := by
  unfold number at h
  split at h
  · next r hr =>
    simp only [Option.some.injEq] at h
    subst h
    exact hex_le cs _ _ hr
  · exact dec_le cs _ _ h

/-- Success characterization of the regex-based `from_str`. -/
theorem mainFromStr_ok_iff (cs : List Char) (r : Range) :
    mainFromStr cs = .ok r ↔
    ∃ startTok sep endTok endv,
      regexCaptures cs = some (startTok, sep, endTok) ∧
      parseStartVal startTok = .ok r.start ∧ r.start ≤ I64_MAX ∧
      parseEndVal endTok = .ok endv ∧
      mainCount sep r.start endv = .ok r.count := by
  obtain ⟨rs, rc⟩ := r
  unfold mainFromStr
  constructor
  · intro h
    split at h
    · exact absurd h (by simp)
    · next startTok sep endTok heq =>
      split at h
      · exact absurd h (by simp)
      · next st hst =>
        split at h
        · exact absurd h (by simp)
        · next hI =>
          split at h
          · exact absurd h (by simp)
          · next endv hend =>
            split at h
            · exact absurd h (by simp)
            · next cnt hcnt =>
              simp only [Except.ok.injEq, Range.mk.injEq] at h
              obtain ⟨h1, h2⟩ := h
              subst h1; subst h2
              exact ⟨startTok, sep, endTok, endv, heq, hst, show st ≤ I64_MAX by omega, hend, hcnt⟩
  · rintro ⟨startTok, sep, endTok, endv, hcap, hst, hI, hend, hcnt⟩
    dsimp only at hst hI hcnt
    rw [hcap]
    simp only [hst, hend, hcnt]
    rw [if_neg (by omega)]

/-- Success characterization of the nom-based `from_str`. -/
theorem nomFromStr_ok_iff (cs : List Char) (r : Range) :
    nomFromStr cs = .ok r ↔
    ∃ rest p,
      parse_range_pieces cs = some (rest, p) ∧
      r.start = p.pstart.getD 0 ∧ r.start ≤ I64_MAX ∧
      nomCount p.mode r.start p.pend = .ok r.count := by
  obtain ⟨rs, rc⟩ := r
  unfold nomFromStr
  constructor
  · intro h
    split at h
    · exact absurd h (by simp)
    · next rest p heq =>
      split at h
      · exact absurd h (by simp)
      · split at h
        · exact absurd h (by simp)
        · next cnt hcnt =>
          simp only [Except.ok.injEq, Range.mk.injEq] at h
          obtain ⟨h1, h2⟩ := h
          subst h1; subst h2
          exact ⟨rest, p, heq, rfl, show p.pstart.getD 0 ≤ I64_MAX by omega, hcnt⟩
  · rintro ⟨rest, p, hcap, hstart, hI, hcnt⟩
    dsimp only at hstart hI hcnt
    subst hstart
    rw [hcap]
    simp only [hcnt]
    rw [if_neg (by omega)]

/-- What a successful `count` computation (main.rs's `match (sep, end)`)
implies. -/
theorem mainCount_ok (sep : Char) (st : Nat) (endv : Option Nat) (cnt : Option Nat)
    (h : mainCount sep st endv = .ok cnt) :
    (endv = none → cnt = none) ∧
    (∀ n, endv = some n →
      (sep = '+' → cnt = some n) ∧
      (sep = '-' → st ≤ n ∧ cnt = some (n - st + 1))) := by
  cases endv with
  | none =>
    unfold mainCount at h
    simp only [Except.ok.injEq] at h
    exact ⟨fun _ => h.symm, fun n hn => by exact absurd hn (by simp)⟩
  | some e =>
    refine ⟨by simp, ?_⟩
    rintro n ⟨rfl⟩
    unfold mainCount at h
    dsimp only at h
    constructor
    · rintro rfl
      rw [if_pos rfl] at h
      simp only [Except.ok.injEq] at h
      exact h.symm
    · rintro rfl
      rw [if_neg (by decide), if_pos rfl] at h
      cases hsub : checked_sub e st with
      | none => rw [hsub] at h; exact absurd h (by simp)
      | some d =>
        rw [hsub] at h
        dsimp only at h
        cases hadd : checked_add_u64 d 1 with
        | none => rw [hadd] at h; exact absurd h (by simp)
        | some c =>
          rw [hadd] at h
          dsimp only at h
          simp only [Except.ok.injEq] at h
          unfold checked_sub at hsub
          split at hsub
          · next hle =>
            simp only [Option.some.injEq] at hsub
            unfold checked_add_u64 at hadd
            split at hadd
            · simp only [Option.some.injEq] at hadd
              exact ⟨hle, by rw [← h, ← hadd, ← hsub]⟩
            · exact absurd hadd (by simp)
          · exact absurd hsub (by simp)

/-- The `'-'` form errors with EndBeforeStart exactly on `end < start`. -/
theorem mainCount_endBeforeStart (st e : Nat) (h : e < st) :
    mainCount '-' st (some e) = .error .endBeforeStart := by
  unfold mainCount
  dsimp only
  rw [if_neg (by decide), if_pos rfl]
  unfold checked_sub
  rw [if_neg (by omega)]

/-- Same facts for range.rs's `match (pieces.mode, pieces.end)`. -/
theorem nomCount_ok (mode : Char) (st : Nat) (endv : Option Nat) (cnt : Option Nat)
    (h : nomCount mode st endv = .ok cnt) :
    (endv = none → cnt = none) ∧
    (∀ n, endv = some n →
      (mode = '+' → cnt = some n) ∧
      (mode = '-' → st ≤ n ∧ cnt = some (n - st + 1))) := by
  cases endv with
  | none =>
    unfold nomCount at h
    simp only [Except.ok.injEq] at h
    exact ⟨fun _ => h.symm, fun n hn => by exact absurd hn (by simp)⟩
  | some e =>
    refine ⟨by simp, ?_⟩
    rintro n ⟨rfl⟩
    unfold nomCount at h
    dsimp only at h
    constructor
    · rintro rfl
      rw [if_pos rfl] at h
      simp only [Except.ok.injEq] at h
      exact h.symm
    · rintro rfl
      rw [if_neg (by decide), if_pos rfl] at h
      cases hsub : checked_sub e st with
      | none => rw [hsub] at h; exact absurd h (by simp)
      | some d =>
        rw [hsub] at h
        dsimp only at h
        cases hadd : checked_add_u64 d 1 with
        | none => rw [hadd] at h; exact absurd h (by simp)
        | some c =>
          rw [hadd] at h
          dsimp only at h
          simp only [Except.ok.injEq] at h
          unfold checked_sub at hsub
          split at hsub
          · next hle =>
            simp only [Option.some.injEq] at hsub
            unfold checked_add_u64 at hadd
            split at hadd
            · simp only [Option.some.injEq] at hadd
              exact ⟨hle, by rw [← h, ← hadd, ← hsub]⟩
            · exact absurd hadd (by simp)
          · exact absurd hsub (by simp)

theorem nomCount_endBeforeStart (st e : Nat) (h : e < st) :
    nomCount '-' st (some e) = .error .endBeforeStart := by
  unfold nomCount
  dsimp only
  rw [if_neg (by decide), if_pos rfl]
  unfold checked_sub
  rw [if_neg (by omega)]

/-- C1: every successfully parsed range expression obeys the separator
table, in both implementations: a missing start number defaults `start`
to 0; a missing end number gives `count = none` for either separator;
`'+'` with end `N` gives `count = N`; `'-'` with end `M` gives the
inclusive `count = M - start + 1` (and in particular `start ≤ M`); and
when `M < start` the `'-'` form fails with the EndBeforeStart error. -/
theorem range_separator_table :
    ((∀ cs startTok sep endTok r,
        regexCaptures cs = some (startTok, sep, endTok) →
        mainFromStr cs = .ok r →
        (startTok = none → r.start = 0) ∧
        (endTok = none → r.count = none) ∧
        (∀ t n, endTok = some t → parse_number t = some n →
          (sep = '+' → r.count = some n) ∧
          (sep = '-' → r.start ≤ n ∧ r.count = some (n - r.start + 1)))) ∧
     (∀ cs startTok t st n,
        regexCaptures cs = some (startTok, '-', some t) →
        parseStartVal startTok = .ok st → st ≤ I64_MAX →
        parse_number t = some n → n < st →
        mainFromStr cs = .error .endBeforeStart))
    ∧
    ((∀ cs rest p r,
        parse_range_pieces cs = some (rest, p) →
        nomFromStr cs = .ok r →
        (p.pstart = none → r.start = 0) ∧
        (∀ v, p.pstart = some v → r.start = v) ∧
        (p.pend = none → r.count = none) ∧
        (∀ n, p.pend = some n →
          (p.mode = '+' → r.count = some n) ∧
          (p.mode = '-' → r.start ≤ n ∧ r.count = some (n - r.start + 1)))) ∧
     (∀ cs rest p n,
        parse_range_pieces cs = some (rest, p) →
        p.mode = '-' → p.pend = some n →
        p.pstart.getD 0 ≤ I64_MAX → n < p.pstart.getD 0 →
        nomFromStr cs = .error .endBeforeStart)) := by
  refine ⟨⟨?_, ?_⟩, ?_, ?_⟩
  · -- main.rs, successful parses
    intro cs startTok sep endTok r hcap hok
    obtain ⟨startTok', sep', endTok', endv, hcap', hst, hI, hend, hcnt⟩ :=
      (mainFromStr_ok_iff cs r).mp hok
    rw [hcap] at hcap'
    simp only [Option.some.injEq, Prod.mk.injEq] at hcap'
    obtain ⟨h1, h2, h3⟩ := hcap'
    subst h1; subst h2; subst h3
    obtain ⟨hnone, hsome⟩ := mainCount_ok sep r.start endv r.count hcnt
    refine ⟨?_, ?_, ?_⟩
    · rintro rfl
      simp only [parseStartVal, Except.ok.injEq] at hst
      exact hst.symm
    · rintro rfl
      simp only [parseEndVal, Except.ok.injEq] at hend
      exact hnone hend.symm
    · rintro t n rfl hpn
      simp only [parseEndVal, hpn, Except.ok.injEq] at hend
      exact hsome n (by rw [← hend])
  · -- main.rs, EndBeforeStart
    intro cs startTok t st n hcap hst hI hpn hlt
    unfold mainFromStr
    rw [hcap]
    simp only [hst]
    rw [if_neg (by omega)]
    simp only [parseEndVal, hpn]
    rw [mainCount_endBeforeStart st n hlt]
  · -- range.rs, successful parses
    intro cs rest p r hcap hok
    obtain ⟨rest', p', hcap', hstart, hI, hcnt⟩ := (nomFromStr_ok_iff cs r).mp hok
    rw [hcap] at hcap'
    simp only [Option.some.injEq, Prod.mk.injEq] at hcap'
    obtain ⟨h1, h2⟩ := hcap'
    subst h1; subst h2
    obtain ⟨hnone, hsome⟩ := nomCount_ok p.mode r.start p.pend r.count hcnt
    refine ⟨?_, ?_, hnone, hsome⟩
    · intro hn; rw [hstart, hn]; rfl
    · intro v hv; rw [hstart, hv]; rfl
  · -- range.rs, EndBeforeStart
    intro cs rest p n hcap hmode hpend hI hlt
    unfold nomFromStr
    rw [hcap]
    dsimp only
    rw [if_neg (by omega)]
    rw [hmode, hpend, nomCount_endBeforeStart _ n hlt]

theorem range_separator_table_witness :
    regexCaptures ['5', '-', '7'] = some (some ['5'], '-', some ['7']) ∧
      mainFromStr ['5', '-', '7'] = .ok ⟨5, some 3⟩ ∧
      parse_number ['7'] = some 7 ∧
      (('-' : Char) = '-' → (5 : Nat) ≤ 7 ∧ (some 3 : Option Nat) = some (7 - 5 + 1)) :=
  ⟨by decide, by decide, by decide,
    ((range_separator_table.1.1 ['5', '-', '7'] (some ['5']) '-' (some ['7']) ⟨5, some 3⟩
      (by decide) (by decide)).2.2 ['7'] 7 rfl (by decide)).2⟩

/-- C7: every `Range` either parser produces satisfies
`start ≤ i64::MAX`, so the `u64 → i64` conversion feeding
`SeekFrom::Current` cannot fail; `start = i64::MAX` itself parses
(`0x7fffffffffffffff`), one more fails with the start-too-large error in
both implementations. -/
theorem start_le_i64_max :
    (∀ cs r, mainFromStr cs = .ok r →
      r.start ≤ I64_MAX ∧ i64TryFrom r.start = some (Int.ofNat r.start))
    ∧ (∀ cs r, nomFromStr cs = .ok r →
      r.start ≤ I64_MAX ∧ i64TryFrom r.start = some (Int.ofNat r.start))
    ∧ mainFromStr "0x7fffffffffffffff+".toList = .ok ⟨I64_MAX, none⟩
    ∧ mainFromStr "0x8000000000000000+".toList = .error .startTooLarge
    ∧ nomFromStr "0x7fffffffffffffff+".toList = .ok ⟨I64_MAX, none⟩
    ∧ nomFromStr "0x8000000000000000+".toList = .error .startOutOfBounds := by
  refine ⟨?_, ?_, by decide, by decide, by decide, by decide⟩
  · intro cs r h
    obtain ⟨_, _, _, _, _, _, hI, _, _⟩ := (mainFromStr_ok_iff cs r).mp h
    exact ⟨hI, by unfold i64TryFrom; rw [if_pos hI]⟩
  · intro cs r h
    obtain ⟨_, _, _, _, hI, _⟩ := (nomFromStr_ok_iff cs r).mp h
    exact ⟨hI, by unfold i64TryFrom; rw [if_pos hI]⟩

theorem start_le_i64_max_witness :
    mainFromStr ['9', '+'] = .ok ⟨9, none⟩ ∧
      (Range.mk 9 none).start ≤ I64_MAX ∧
      i64TryFrom (Range.mk 9 none).start = some (Int.ofNat (Range.mk 9 none).start) :=
  ⟨by decide,
    (start_le_i64_max.1 ['9', '+'] ⟨9, none⟩ (by decide)).1,
    (start_le_i64_max.1 ['9', '+'] ⟨9, none⟩ (by decide)).2⟩

/-- `parseStartVal` can only fail with the invalid-start error. -/
theorem parseStartVal_error (t : Option (List Char)) (e : MainErr)
    (h : parseStartVal t = .error e) : e = .invalidStart := by
  cases t with
  | none => simp [parseStartVal] at h
  | some s =>
    unfold parseStartVal at h
    dsimp only at h
    split at h
    · exact absurd h (by simp)
    · simp only [Except.error.injEq] at h
      exact h.symm

/-- `parseEndVal` can only fail with the invalid-end error. -/
theorem parseEndVal_error (t : Option (List Char)) (e : MainErr)
    (h : parseEndVal t = .error e) : e = .invalidEnd := by
  cases t with
  | none => simp [parseEndVal] at h
  | some s =>
    unfold parseEndVal at h
    dsimp only at h
    split at h
    · exact absurd h (by simp)
    · simp only [Except.error.injEq] at h
      exact h.symm

/-- `parseEndVal` returning a number means the end capture is a token
converting to it. -/
theorem parseEndVal_ok_some (t : Option (List Char)) (e : Nat)
    (h : parseEndVal t = .ok (some e)) :
    ∃ s, t = some s ∧ parse_number s = some e := by
  cases t with
  | none => simp [parseEndVal] at h
  | some s =>
    unfold parseEndVal at h
    dsimp only at h
    split at h
    · next v hv =>
      simp only [Except.ok.injEq, Option.some.injEq] at h
      exact ⟨s, rfl, h ▸ hv⟩
    · exact absurd h (by simp)

/-- A byte-count overflow out of the `match (sep, end)` arises only in
the `'-'` arm, after a successful checked subtraction whose result is at
least `u64::MAX`. -/
theorem mainCount_error_overflow (sep : Char) (st : Nat) (endv : Option Nat)
    (h : mainCount sep st endv = .error .byteCountOverflow) :
    sep = '-' ∧ ∃ e, endv = some e ∧ st ≤ e ∧ U64_MAX ≤ e - st := by
  cases endv with
  | none => exact absurd h (by simp [mainCount])
  | some e =>
    unfold mainCount at h
    dsimp only at h
    by_cases hp : sep = '+'
    · rw [if_pos hp] at h; exact absurd h (by simp)
    · rw [if_neg hp] at h
      by_cases hm : sep = '-'
      · rw [if_pos hm] at h
        refine ⟨hm, e, rfl, ?_⟩
        cases hsub : checked_sub e st with
        | none => rw [hsub] at h; exact absurd h (by simp)
        | some d =>
          rw [hsub] at h
          dsimp only at h
          cases hadd : checked_add_u64 d 1 with
          | none =>
            unfold checked_sub at hsub
            split at hsub
            · next hle =>
              simp only [Option.some.injEq] at hsub
              unfold checked_add_u64 at hadd
              rw [ite_eq_right_iff] at hadd
              refine ⟨hle, ?_⟩
              by_contra hcon
              exact absurd (hadd (by omega)) (by simp)
            · exact absurd hsub (by simp)
          | some c => rw [hadd] at h; exact absurd h (by simp)
      · rw [if_neg hm] at h; exact absurd h (by simp)

theorem nomCount_error_overflow (mode : Char) (st : Nat) (endv : Option Nat)
    (h : nomCount mode st endv = .error .overflow) :
    mode = '-' ∧ ∃ e, endv = some e ∧ st ≤ e ∧ U64_MAX ≤ e - st := by
  cases endv with
  | none => exact absurd h (by simp [nomCount])
  | some e =>
    unfold nomCount at h
    dsimp only at h
    by_cases hp : mode = '+'
    · rw [if_pos hp] at h; exact absurd h (by simp)
    · rw [if_neg hp] at h
      by_cases hm : mode = '-'
      · rw [if_pos hm] at h
        refine ⟨hm, e, rfl, ?_⟩
        cases hsub : checked_sub e st with
        | none => rw [hsub] at h; exact absurd h (by simp)
        | some d =>
          rw [hsub] at h
          dsimp only at h
          cases hadd : checked_add_u64 d 1 with
          | none =>
            unfold checked_sub at hsub
            split at hsub
            · next hle =>
              simp only [Option.some.injEq] at hsub
              unfold checked_add_u64 at hadd
              rw [ite_eq_right_iff] at hadd
              refine ⟨hle, ?_⟩
              by_contra hcon
              exact absurd (hadd (by omega)) (by simp)
            · exact absurd hsub (by simp)
          | some c => rw [hadd] at h; exact absurd h (by simp)
      · rw [if_neg hm] at h; exact absurd h (by simp)

/-- `finishPieces` succeeds only at end of input and returns the pieces. -/
theorem finishPieces_some (ps : Option Nat) (mode : Char) (pend : Option Nat)
    (cs2 rest : List Char) (p : RangePieces)
    (h : finishPieces ps mode pend cs2 = some (rest, p)) :
    cs2 = [] ∧ rest = [] ∧ p = ⟨ps, mode, pend⟩ := by
  cases cs2 with
  | nil =>
    unfold finishPieces at h
    simp only [Option.some.injEq, Prod.mk.injEq] at h
    exact ⟨rfl, h.1.symm, h.2.symm⟩
  | cons c cs => exact absurd h (by simp [finishPieces])

/-- Structure of a successful `parseSepEnd`. -/
theorem parseSepEnd_some (ps : Option Nat) (cs1 rest : List Char) (p : RangePieces)
    (h : parseSepEnd ps cs1 = some (rest, p)) :
    ∃ r2, cs1 = p.mode :: r2 ∧ isSepChar p.mode = true ∧ p.pstart = ps ∧ rest = [] ∧
      ((number r2 = none ∧ p.pend = none ∧ r2 = []) ∨
       (∃ v, number r2 = some ([], v) ∧ p.pend = some v)) := by
  cases cs1 with
  | nil => exact absurd h (by simp [parseSepEnd])
  | cons c r2 =>
    unfold parseSepEnd at h
    dsimp only at h
    split at h
    · next hsep =>
      cases hn : number r2 with
      | some cv =>
        obtain ⟨cs2, v⟩ := cv
        rw [hn] at h
        obtain ⟨h1, h2, h3⟩ := finishPieces_some _ _ _ _ _ _ h
        subst h1; subst h3
        exact ⟨r2, rfl, hsep, rfl, h2, .inr ⟨v, hn, rfl⟩⟩
      | none =>
        rw [hn] at h
        obtain ⟨h1, h2, h3⟩ := finishPieces_some _ _ _ _ _ _ h
        subst h3
        exact ⟨r2, rfl, hsep, rfl, h2, .inl ⟨hn, rfl, h1⟩⟩
    · exact absurd h (by simp)

/-- Structure of a successful `parse_range_pieces`: how the `start` field
arose, and value bounds for both numbers. -/
theorem parse_range_pieces_some (cs rest : List Char) (p : RangePieces)
    (h : parse_range_pieces cs = some (rest, p)) :
    rest = [] ∧ isSepChar p.mode = true ∧
    (∀ v, p.pstart = some v → v ≤ U64_MAX) ∧
    (∀ v, p.pend = some v → v ≤ U64_MAX) := by
  unfold parse_range_pieces at h
  have hend : ∀ ps r2 (h' : parseSepEnd ps r2 = some (rest, p)),
      rest = [] ∧ isSepChar p.mode = true ∧ (∀ v, p.pend = some v → v ≤ U64_MAX) := by
    intro ps r2 h'
    obtain ⟨r3, _, hsep, _, hrest, hcase⟩ := parseSepEnd_some ps r2 rest p h'
    refine ⟨hrest, hsep, ?_⟩
    intro v hv2
    rcases hcase with ⟨_, hnone, _⟩ | ⟨w, hw, hv⟩
    · rw [hnone] at hv2; exact absurd hv2 (by simp)
    · rw [hv] at hv2
      simp only [Option.some.injEq] at hv2
      exact hv2 ▸ number_le _ _ _ hw
  cases hn : number cs with
  | some cv =>
    obtain ⟨cs1, v⟩ := cv
    rw [hn] at h
    obtain ⟨hrest, hsep, hpend⟩ := hend (some v) cs1 h
    refine ⟨hrest, hsep, ?_, hpend⟩
    obtain ⟨_, _, _, hps, _, _⟩ := parseSepEnd_some (some v) cs1 rest p h
    rintro w hw
    rw [hps] at hw
    simp only [Option.some.injEq] at hw
    exact hw ▸ number_le _ _ _ hn
  | none =>
    rw [hn] at h
    obtain ⟨hrest, hsep, hpend⟩ := hend none cs h
    refine ⟨hrest, hsep, ?_, hpend⟩
    obtain ⟨_, _, _, hps, _, _⟩ := parseSepEnd_some none cs rest p h
    rintro w hw
    rw [hps] at hw
    exact absurd hw (by simp)

/-! ### nom run recognizer: closed form and consequences -/

theorem takeWhile_append_all {p : Char → Bool} :
    ∀ (a b : List Char), a.all p = true → (a ++ b).takeWhile p = a ++ b.takeWhile p := by
  intro a b ha
  induction a with
  | nil => rfl
  | cons c t ih =>
    simp only [List.all_cons, Bool.and_eq_true] at ha
    simp only [List.cons_append, List.takeWhile_cons_of_pos ha.1, List.cons.injEq]
    exact ⟨trivial, ih ha.2⟩

theorem dropWhile_append_all {p : Char → Bool} :
    ∀ (a b : List Char), a.all p = true → (a ++ b).dropWhile p = b.dropWhile p := by
  intro a b ha
  induction a with
  | nil => rfl
  | cons c t ih =>
    simp only [List.all_cons, Bool.and_eq_true] at ha
    simp only [List.cons_append, List.dropWhile_cons_of_pos ha.1]
    exact ih ha.2

theorem takeWhile_of_all {p : Char → Bool} (a : List Char) (ha : a.all p = true) :
    a.takeWhile p = a := by
  have := takeWhile_append_all a [] ha
  simpa using this

theorem dropWhile_of_all {p : Char → Bool} (a : List Char) (ha : a.all p = true) :
    a.dropWhile p = [] := by
  have := dropWhile_append_all a [] ha
  simpa using this

theorem takeWhile_nil_of_head {p : Char → Bool} (c : Char) (t : List Char)
    (hc : p c = false) : (c :: t).takeWhile p = [] :=
  List.takeWhile_cons_of_neg (by simp [hc])

theorem dropWhile_head_false {p : Char → Bool} (l : List Char) (c : Char) (t : List Char)
    (h : l.dropWhile p = c :: t) : p c = false := by
  have := List.head?_dropWhile_not p l
  rw [h] at this
  exact this

/-- Closed form of the fueled nom digit-run recognizer, given enough
fuel: succeed iff the head is a digit, consuming the maximal run of
digits and grouping underscores. -/
theorem digitRunFuel_eq (isD : Char → Bool) :
    ∀ (fuel : Nat) (cs : List Char), cs.length < fuel →
      digitRunFuel isD fuel cs =
        match cs with
        | [] => none
        | c :: _ =>
          if isD c then
            some (cs.dropWhile (fun x => isD x || x = '_'),
                  cs.takeWhile (fun x => isD x || x = '_'))
          else none := by
  intro fuel
  induction fuel with
  | zero => intro cs h; omega
  | succ fuel ih =>
    intro cs hlen
    rw [digitRunFuel.eq_2]
    dsimp only
    by_cases hd : (cs.takeWhile isD).isEmpty = true
    · rw [if_pos hd]
      cases cs with
      | nil => rfl
      | cons c t =>
        have hc : isD c = false := by
          by_contra hcc
          rw [List.takeWhile_cons_of_pos
            (show isD c = true by revert hcc; cases isD c <;> simp)] at hd
          simp at hd
        dsimp only
        rw [if_neg (by simp [hc])]
    · rw [if_neg hd]
      obtain ⟨c, t, rfl⟩ : ∃ c t, cs = c :: t := by
        cases cs with
        | nil => simp at hd
        | cons c t => exact ⟨c, t, rfl⟩
      have hc : isD c = true := by
        by_contra hcc
        rw [List.takeWhile_cons_of_neg (by revert hcc; cases isD c <;> simp)] at hd
        simp at hd
      dsimp only
      rw [if_pos hc]
      have hallD : ((c :: t).takeWhile isD).all (fun x => isD x || x = '_') = true := by
        have h := List.all_takeWhile (p := isD) (l := c :: t)
        simp only [List.all_eq_true] at h ⊢
        intro x hx
        simp [h x hx]
      have hallU : (((c :: t).dropWhile isD).takeWhile (fun x => x = '_')).all
          (fun x => isD x || x = '_') = true := by
        have h := List.all_takeWhile (p := fun x => x = '_') (l := (c :: t).dropWhile isD)
        simp only [List.all_eq_true] at h ⊢
        intro x hx
        simp [h x hx]
      have htakeBase : (c :: t).takeWhile (fun x => isD x || x = '_') =
          (c :: t).takeWhile isD
            ++ (((c :: t).dropWhile isD).takeWhile (fun x => x = '_')
              ++ ((((c :: t).dropWhile isD).dropWhile (fun x => x = '_')).takeWhile
                  (fun x => isD x || x = '_'))) := by
        conv_lhs => rw [← List.takeWhile_append_dropWhile isD (c :: t)]
        rw [takeWhile_append_all _ _ hallD]
        congr 1
        conv_lhs =>
          rw [← List.takeWhile_append_dropWhile (fun x => x = '_') ((c :: t).dropWhile isD)]
        rw [takeWhile_append_all _ _ hallU]
      have hdropBase : (c :: t).dropWhile (fun x => isD x || x = '_') =
          (((c :: t).dropWhile isD).dropWhile (fun x => x = '_')).dropWhile
            (fun x => isD x || x = '_') := by
        conv_lhs => rw [← List.takeWhile_append_dropWhile isD (c :: t)]
        rw [dropWhile_append_all _ _ hallD]
        conv_lhs =>
          rw [← List.takeWhile_append_dropWhile (fun x => x = '_') ((c :: t).dropWhile isD)]
        rw [dropWhile_append_all _ _ hallU]
      have hlen2 : ((((c :: t).dropWhile isD)).dropWhile fun x => x = '_').length < fuel := by
        have l1 : ((c :: t).dropWhile isD).length < (c :: t).length := by
          have hsp := congrArg List.length (List.takeWhile_append_dropWhile isD (c :: t))
          simp only [List.length_append] at hsp
          have hne : 0 < ((c :: t).takeWhile isD).length := by
            rw [List.takeWhile_cons_of_pos hc]
            simp
          omega
        have l2 : (((c :: t).dropWhile isD).dropWhile (fun x => x = '_')).length
            ≤ ((c :: t).dropWhile isD).length :=
          (List.dropWhile_sublist _).length_le
        simp only [List.length_cons] at hlen l1
        omega
      rw [ih _ hlen2]
      cases hr2 : ((c :: t).dropWhile isD).dropWhile (fun x => x = '_') with
      | nil =>
        rw [htakeBase, hdropBase, hr2]
        simp
      | cons c2 t2 =>
        have hu : decide (c2 = '_') = false := dropWhile_head_false _ _ _ hr2
        by_cases hc2 : isD c2 = true
        · rw [htakeBase, hdropBase, hr2]
          dsimp only
          rw [if_pos hc2]
          simp
        · have hc2f : isD c2 = false := by revert hc2; cases isD c2 <;> simp
          have hp : (isD c2 || decide (c2 = '_')) = false := by
            rw [hc2f, hu]
            rfl
          rw [htakeBase, hdropBase, hr2]
          dsimp only
          rw [if_neg (by simp [hc2f])]
          rw [takeWhile_nil_of_head c2 t2 hp]
          have hdw : List.dropWhile (fun x => isD x || decide (x = '_')) (c2 :: t2)
              = c2 :: t2 := by
            rw [List.dropWhile_cons]
            simp [hc2f, hu]
          rw [hdw]
          simp

/-- Closed form of `recognizeRun`. -/
theorem recognizeRun_eq (isD : Char → Bool) (cs : List Char) :
    recognizeRun isD cs =
      match cs with
      | [] => none
      | c :: _ =>
        if isD c then
          some (cs.dropWhile (fun x => isD x || x = '_'),
                cs.takeWhile (fun x => isD x || x = '_'))
        else none := by
  unfold recognizeRun
  exact digitRunFuel_eq isD (cs.length + 1) cs (by omega)

/-- Structure of a successful run: the recognized token is the maximal
digit-or-underscore run, it starts with a digit, and the rest follows. -/
theorem recognizeRun_some (isD : Char → Bool) (cs rest tok : List Char)
    (h : recognizeRun isD cs = some (rest, tok)) :
    cs = tok ++ rest ∧
    tok = cs.takeWhile (fun x => isD x || x = '_') ∧
    rest = cs.dropWhile (fun x => isD x || x = '_') ∧
    tok.all (fun x => isD x || x = '_') = true ∧
    ∃ c t, tok = c :: t ∧ isD c = true := by
  rw [recognizeRun_eq] at h
  cases cs with
  | nil => exact absurd h (by simp)
  | cons c t =>
    dsimp only at h
    by_cases hc : isD c = true
    · rw [if_pos hc] at h
      simp only [Option.some.injEq, Prod.mk.injEq] at h
      obtain ⟨hrest, htok⟩ := h
      subst hrest
      subst htok
      refine ⟨(List.takeWhile_append_dropWhile _ _).symm, rfl, rfl, List.all_takeWhile, ?_⟩
      have ht : List.takeWhile (fun x => isD x || decide (x = '_')) (c :: t)
          = c :: List.takeWhile (fun x => isD x || decide (x = '_')) t := by
        rw [List.takeWhile_cons]
        simp [hc]
      rw [ht]
      exact ⟨c, _, rfl, hc⟩
    · rw [if_neg hc] at h
      exact absurd h (by simp)

/-- Re-running the recognizer on just the recognized token consumes it
fully and recognizes the same token. -/
theorem recognizeRun_restart (isD : Char → Bool) (cs rest tok : List Char)
    (h : recognizeRun isD cs = some (rest, tok)) :
    recognizeRun isD tok = some ([], tok) := by
  obtain ⟨hcs, htok, hrest, hall, c, t, htokc, hc⟩ := recognizeRun_some isD cs rest tok h
  rw [htokc] at hall ⊢
  rw [recognizeRun_eq]
  dsimp only
  rw [if_pos hc, takeWhile_of_all _ hall, dropWhile_of_all _ hall]

/-- Digit-run characters (hex case) are never separator characters. -/
theorem notSep_of_hexish (x : Char) (hD : (isNomHexDigit x || decide (x = '_')) = true) :
    (!isSepChar x) = true := by
  unfold isSepChar
  by_cases h1 : x = '-'
  · subst h1; exact absurd hD (by decide)
  · by_cases h2 : x = '+'
    · subst h2; exact absurd hD (by decide)
    · simp [h1, h2]

theorem hexish_of_decish (x : Char) (hD : (isNomDigit x || decide (x = '_')) = true) :
    (isNomHexDigit x || decide (x = '_')) = true := by
  unfold isNomDigit at hD
  unfold isNomHexDigit
  rcases Bool.or_eq_true_iff.mp hD with h | h
  · rw [h]; rfl
  · rw [h]; simp

/-- Inversion of `hexTail`. -/
theorem hexTail_some (rest0 rest : List Char) (v : Nat)
    (h : hexTail rest0 = some (rest, v)) :
    ∃ tok, recognizeRun isNomHexDigit rest0 = some (rest, tok) ∧
      rustParseU64Radix 16 (tok.filter (fun c => c ≠ '_')) = some v := by
  unfold hexTail at h
  split at h
  · exact absurd h (by simp)
  · next rest' out heq =>
    split at h
    · next v' hv =>
      simp only [Option.some.injEq, Prod.mk.injEq] at h
      obtain ⟨h1, h2⟩ := h
      subst h1
      subst h2
      exact ⟨out, heq, hv⟩
    · exact absurd h (by simp)

/-- Inversion of `hex`: the consumed prefix is `0x` or `0X` plus a run. -/
theorem hex_some (cs rest : List Char) (v : Nat) (h : hex cs = some (rest, v)) :
    ∃ pre2 rest0, (pre2 = ['0', 'x'] ∨ pre2 = ['0', 'X']) ∧ cs = pre2 ++ rest0 ∧
      hexTail rest0 = some (rest, v) := by
  unfold hex at h
  split at h
  · next rest0 => exact ⟨['0', 'x'], rest0, .inl rfl, rfl, h⟩
  · next rest0 => exact ⟨['0', 'X'], rest0, .inr rfl, rfl, h⟩
  · exact absurd h (by simp)

/-- A pure decimal digit-underscore run can never start with the `0x`/`0X`
prefix, so `hex` fails on it. -/
theorem hex_none_of_digitRun (tok : List Char)
    (hall : tok.all (fun c => isNomDigit c || c = '_') = true) : hex tok = none := by
  rw [List.all_eq_true] at hall
  unfold hex
  split
  · next rest0 =>
    have hx := hall 'x' (by simp)
    exact absurd hx (by decide)
  · next rest0 =>
    have hx := hall 'X' (by simp)
    exact absurd hx (by decide)
  · rfl

/-- Inversion of `number`, with a restart property: the consumed token is
nonempty, separator-free, and `number` run on the token alone consumes it
fully producing the same value. -/
theorem number_some (cs rest : List Char) (v : Nat) (h : number cs = some (rest, v)) :
    ∃ tok, tok ≠ [] ∧ cs = tok ++ rest ∧
      tok.all (fun c => !isSepChar c) = true ∧
      number tok = some ([], v) := by
  unfold number at h
  split at h
  · next r hr =>
    simp only [Option.some.injEq] at h
    subst h
    obtain ⟨pre2, rest0, hpre2, hcs, htail⟩ := hex_some cs rest v hr
    obtain ⟨tok, hrun, hval⟩ := hexTail_some rest0 rest v htail
    obtain ⟨hr0, htokTW, hrestDW, hall, c, t, htokc, hcd⟩ := recognizeRun_some _ _ _ _ hrun
    have hrestart := recognizeRun_restart _ _ _ _ hrun
    have hhexTok : ∀ pre, (pre = ['0', 'x'] ∨ pre = ['0', 'X']) →
        hex (pre ++ tok) = some ([], v) := by
      rintro pre (rfl | rfl) <;>
      · show hexTail tok = some ([], v)
        unfold hexTail
        rw [hrestart]
        dsimp only
        rw [hval]
    refine ⟨pre2 ++ tok, by rcases hpre2 with rfl | rfl <;> simp, ?_, ?_, ?_⟩
    · rw [hcs, hr0, List.append_assoc]
    · rw [List.all_append, Bool.and_eq_true]
      refine ⟨by rcases hpre2 with rfl | rfl <;> decide, ?_⟩
      rw [List.all_eq_true] at hall ⊢
      intro x hx
      exact notSep_of_hexish x (hall x hx)
    · unfold number
      rw [hhexTok pre2 hpre2]
  · next hhexnone =>
    unfold dec at h
    split at h
    · exact absurd h (by simp)
    · next rest' out heq =>
      split at h
      · next v' hv =>
        simp only [Option.some.injEq, Prod.mk.injEq] at h
        obtain ⟨h1, h2⟩ := h
        subst h1
        subst h2
        obtain ⟨hr0, htokTW, hrestDW, hall, c, t, htokc, hcd⟩ := recognizeRun_some _ _ _ _ heq
        have hrestart := recognizeRun_restart _ _ _ _ heq
        refine ⟨out, by rw [htokc]; simp, hr0, ?_, ?_⟩
        · rw [List.all_eq_true] at hall ⊢
          intro x hx
          exact notSep_of_hexish x (hexish_of_decish x (hall x hx))
        · unfold number
          rw [hex_none_of_digitRun out hall]
          unfold dec
          rw [hrestart]
          dsimp only
          rw [hv]
      · exact absurd h (by simp)

/-- `parse_number` on a lowercase-`0x` token converts the stripped tail
in base 16. -/
theorem parse_number_hex_lower (rest : List Char) :
    parse_number ('0' :: 'x' :: rest) = rustParseU64Radix 16 (rest.filter (fun c => c ≠ '_')) := by
  unfold parse_number
  have hf : ('0' :: 'x' :: rest).filter (fun c => c ≠ '_')
      = '0' :: 'x' :: rest.filter (fun c => c ≠ '_') := by
    simp [List.filter_cons]
  rw [hf]
  rfl

/-- `parse_number` does not strip an uppercase `0X`: the token falls into
the decimal branch. -/
theorem parse_number_hex_upper (rest : List Char) :
    parse_number ('0' :: 'X' :: rest)
      = rustParseU64Radix 10 ('0' :: 'X' :: rest.filter (fun c => c ≠ '_')) := by
  unfold parse_number
  have hf : ('0' :: 'X' :: rest).filter (fun c => c ≠ '_')
      = '0' :: 'X' :: rest.filter (fun c => c ≠ '_') := by
    simp [List.filter_cons]
  rw [hf]
  split
  · next heq => simp at heq
  · rfl

/-- Decimal conversion rejects `'X'`. -/
theorem rustParse_ten_upperX (l : List Char) :
    rustParseU64Radix 10 ('0' :: 'X' :: l) = none := by
  unfold rustParseU64Radix
  have h1 : parseDigits 10 0 ('0' :: 'X' :: l) = none := by
    unfold parseDigits
    rw [show digitVal 10 '0' = some 0 from by decide]
    dsimp only
    rw [if_pos (by unfold U64_MAX; omega)]
    unfold parseDigits
    rw [show digitVal 10 'X' = none from by decide]
  split
  · next heq => simp at heq
  · next d ds heq =>
    split at heq
    · next heq2 => simp at heq2
    · simp only [List.cons.injEq] at heq
      obtain ⟨h2, h3⟩ := heq
      subst h2
      subst h3
      exact h1

/-- On a token whose stripped form is all decimal digits, `parse_number`
takes the decimal branch. -/
theorem parse_number_digits (t : List Char)
    (hall : (t.filter (fun c => c ≠ '_')).all isNomDigit = true) :
    parse_number t = rustParseU64Radix 10 (t.filter (fun c => c ≠ '_')) := by
  unfold parse_number
  split
  · next rest heqf =>
    rw [heqf] at hall
    have hx := List.all_eq_true.mp hall 'x' (by simp)
    exact absurd hx (by decide)
  · rfl

/-- When the nom `number` fully consumes a token and main.rs's
`parse_number` also converts it, the two values agree. -/
theorem tok_value_agree (t : List Char) (v w : Nat)
    (hn : number t = some ([], v)) (hp : parse_number t = some w) : w = v := by
  unfold number at hn
  split at hn
  · next r hr =>
    simp only [Option.some.injEq] at hn
    subst hn
    obtain ⟨pre2, rest0, hpre2, hcs, htail⟩ := hex_some t [] v hr
    obtain ⟨tok, hrun, hval⟩ := hexTail_some rest0 [] v htail
    obtain ⟨hr0, _, _, hall, _, _, _, _⟩ := recognizeRun_some _ _ _ _ hrun
    rw [List.append_nil] at hr0
    rw [hr0] at hcs
    rcases hpre2 with rfl | rfl
    · rw [hcs, show (['0', 'x'] ++ tok : List Char) = '0' :: 'x' :: tok from rfl,
        parse_number_hex_lower, hval] at hp
      simp only [Option.some.injEq] at hp
      exact hp.symm
    · rw [hcs, show (['0', 'X'] ++ tok : List Char) = '0' :: 'X' :: tok from rfl,
        parse_number_hex_upper, rustParse_ten_upperX] at hp
      exact absurd hp (by simp)
  · next hhexnone =>
    unfold dec at hn
    split at hn
    · exact absurd hn (by simp)
    · next rest' out heq =>
      split at hn
      · next v' hv =>
        simp only [Option.some.injEq, Prod.mk.injEq] at hn
        obtain ⟨h1, h2⟩ := hn
        subst h1
        subst h2
        obtain ⟨hr0, _, _, hall, _, _, _, _⟩ := recognizeRun_some _ _ _ _ heq
        rw [List.append_nil] at hr0
        subst hr0
        have hfd : (t.filter (fun c => c ≠ '_')).all isNomDigit = true := by
          rw [List.all_eq_true]
          intro x hx
          rw [List.mem_filter] at hx
          obtain ⟨hxmem, hxne⟩ := hx
          have hd := List.all_eq_true.mp hall x hxmem
          rcases Bool.or_eq_true_iff.mp hd with h | h
          · exact h
          · rw [decide_eq_true_eq] at h
            rw [h] at hxne
            exact absurd hxne (by decide)
        rw [parse_number_digits t hfd, hv] at hp
        simp only [Option.some.injEq] at hp
        exact hp.symm
      · exact absurd hn (by simp)

/-- Structure of a successful regex match. -/
theorem regexCaptures_some (cs : List Char) (startTok : Option (List Char)) (sep : Char)
    (endTok : Option (List Char))
    (h : regexCaptures cs = some (startTok, sep, endTok)) :
    ∃ pre post, cs = pre ++ sep :: post ∧
      pre = cs.takeWhile (fun c => !isSepChar c) ∧
      isSepChar sep = true ∧
      pre.all (fun c => !isSepChar c) = true ∧
      post.all (fun c => !isSepChar c) = true ∧
      startTok = (if pre.isEmpty then none else some pre) ∧
      endTok = (if post.isEmpty then none else some post) := by
  unfold regexCaptures at h
  split at h
  · next hcount =>
    dsimp only at h
    split at h
    · next sep0 post0 heq =>
      split at h
      · next hTok =>
        simp only [Option.some.injEq, Prod.mk.injEq] at h
        obtain ⟨hsT, hsep0, heT⟩ := h
        subst hsep0
        have hcs : cs = cs.takeWhile (fun c => !isSepChar c) ++ sep0 :: post0 := by
          conv_lhs => rw [← List.takeWhile_append_dropWhile (fun c => !isSepChar c) cs]
          rw [heq]
        have hsepc : isSepChar sep0 = true := by
          have hh := dropWhile_head_false _ _ _ heq
          revert hh
          cases isSepChar sep0 <;> simp
        have hpreall : (cs.takeWhile (fun c => !isSepChar c)).all
            (fun c => !isSepChar c) = true := List.all_takeWhile
        have hpostall : post0.all (fun c => !isSepChar c) = true := by
          rw [hcs] at hcount
          rw [List.countP_append] at hcount
          have hzero : (cs.takeWhile (fun c => !isSepChar c)).countP
              (fun c => isSepChar c) = 0 := by
            rw [List.countP_eq_zero]
            intro a ha
            have := List.all_eq_true.mp hpreall a ha
            revert this
            cases isSepChar a <;> simp
          rw [hzero, List.countP_cons] at hcount
          simp only [hsepc, if_true] at hcount
          have hc0 : post0.countP (fun c => isSepChar c) = 0 := by omega
          rw [List.all_eq_true]
          intro a ha
          have := List.countP_eq_zero.mp hc0 a ha
          revert this
          cases isSepChar a <;> simp
        exact ⟨_, post0, hcs, rfl, hsepc, hpreall, hpostall, hsT.symm, heT.symm⟩
      · exact absurd h (by simp)
    · exact absurd h (by simp)
  · exact absurd h (by simp)

/-- Inverting a successful start-capture conversion. -/
theorem parseStartVal_ok_some (t : List Char) (v : Nat)
    (h : parseStartVal (some t) = .ok v) : parse_number t = some v := by
  unfold parseStartVal at h
  dsimp only at h
  split at h
  · next w hw =>
    simp only [Except.ok.injEq] at h
    exact h ▸ hw
  · exact absurd h (by simp)

/-- Inverting a successful end-capture conversion. -/
theorem parseEndVal_some_ok (t : List Char) (ev : Option Nat)
    (h : parseEndVal (some t) = .ok ev) : ∃ e, ev = some e ∧ parse_number t = some e := by
  unfold parseEndVal at h
  dsimp only at h
  split at h
  · next w hw =>
    simp only [Except.ok.injEq] at h
    exact ⟨w, h.symm, hw⟩
  · exact absurd h (by simp)

/-- The two `count` computations take the same successful values. -/
theorem count_agree (sep : Char) (st : Nat) (ev : Option Nat) (c1 c2 : Option Nat)
    (h1 : mainCount sep st ev = .ok c1) (h2 : nomCount sep st ev = .ok c2) : c1 = c2 := by
  cases ev with
  | none =>
    unfold mainCount at h1
    unfold nomCount at h2
    simp only [Except.ok.injEq] at h1 h2
    rw [← h1, ← h2]
  | some e =>
    unfold mainCount at h1
    unfold nomCount at h2
    dsimp only at h1 h2
    by_cases hp : sep = '+'
    · rw [if_pos hp] at h1 h2
      simp only [Except.ok.injEq] at h1 h2
      rw [← h1, ← h2]
    · rw [if_neg hp] at h1 h2
      by_cases hm : sep = '-'
      · rw [if_pos hm] at h1 h2
        cases hsub : checked_sub e st with
        | none => rw [hsub] at h1; exact absurd h1 (by simp)
        | some d =>
          rw [hsub] at h1 h2
          dsimp only at h1 h2
          cases hadd : checked_add_u64 d 1 with
          | none => rw [hadd] at h1; exact absurd h1 (by simp)
          | some c =>
            rw [hadd] at h1 h2
            dsimp only at h1 h2
            simp only [Except.ok.injEq] at h1 h2
            rw [← h1, ← h2]
      · rw [if_neg hm] at h1 h2
        simp only [Except.ok.injEq] at h1 h2
        rw [← h1, ← h2]

/-- C3 (amended): on every input where both implementations succeed they
produce the same `(start, count)` pair.  (They are not equivalent on the
full input space — see the counterexample `parsers_disagree_on_0X` —
but a success of both always carries identical values.) -/
theorem parsers_agree_on_success :
    ∀ cs r1 r2, mainFromStr cs = .ok r1 → nomFromStr cs = .ok r2 → r1 = r2 := by
  intro cs r1 r2 h1 h2
  obtain ⟨startTok, sep, endTok, endv, hcap, hst, hI1, hend, hcnt⟩ :=
    (mainFromStr_ok_iff cs r1).mp h1
  obtain ⟨rest0, p, hpp, hstart2, hI2, hcnt2⟩ := (nomFromStr_ok_iff cs r2).mp h2
  obtain ⟨pre, post, hcs, hpredef, hsepT, hpreall, hpostall, hstT, hendT⟩ :=
    regexCaptures_some cs startTok sep endTok hcap
  unfold parse_range_pieces at hpp
  split at hpp
  · -- a start number was consumed by nom
    next cs1 v1 hn =>
    obtain ⟨tok1, htokne, htokcs, htokall, htoknum⟩ := number_some cs cs1 v1 hn
    obtain ⟨r2', hcs2, hsepP, hps, hrest, hcase⟩ := parseSepEnd_some (some v1) cs1 rest0 p hpp
    have hcs' : cs = tok1 ++ p.mode :: r2' := by rw [htokcs, hcs2]
    have hpre : pre = tok1 := by
      rw [hpredef, hcs']
      rw [takeWhile_append_all tok1 _ htokall]
      rw [takeWhile_nil_of_head p.mode r2' (by simp [hsepP])]
      rw [List.append_nil]
    have hsp : sep :: post = p.mode :: r2' := by
      have hx := hcs.symm.trans hcs'
      rw [hpre] at hx
      exact List.append_cancel_left hx
    simp only [List.cons.injEq] at hsp
    obtain ⟨hsepEq, hpostEq⟩ := hsp
    -- start values agree
    have hpne : pre.isEmpty = false := by
      rw [hpre]
      cases tok1 with
      | nil => exact absurd rfl htokne
      | cons a b => rfl
    rw [hpne] at hstT
    simp only [Bool.false_eq_true, if_false] at hstT
    rw [hstT] at hst
    have hpnum : parse_number tok1 = some r1.start := by
      rw [← hpre]
      exact parseStartVal_ok_some pre r1.start hst
    have hstv : r1.start = v1 := tok_value_agree tok1 v1 r1.start htoknum hpnum
    have hstv2 : r2.start = v1 := by rw [hstart2, hps]; rfl
    -- end side
    rcases hcase with ⟨hnum2none, hpendnone, hr2nil⟩ | ⟨v2, hnum2, hpend⟩
    · have hpost : post = [] := by rw [hpostEq, hr2nil]
      rw [hpost] at hendT
      simp only [List.isEmpty_nil, if_true] at hendT
      rw [hendT] at hend
      have hev : endv = none := by
        unfold parseEndVal at hend
        simp only [Except.ok.injEq] at hend
        exact hend.symm
      rw [hev] at hcnt
      rw [hpendnone] at hcnt2
      have hc1 := (mainCount_ok _ _ _ _ hcnt).1 rfl
      have hc2 := (nomCount_ok _ _ _ _ hcnt2).1 rfl
      have hs12 : r1.start = r2.start := by rw [hstv, hstv2]
      have hc12 : r1.count = r2.count := by rw [hc1, hc2]
      obtain ⟨rs1, rc1⟩ := r1
      obtain ⟨rs2, rc2⟩ := r2
      simp only [Range.mk.injEq]
      exact ⟨hs12, hc12⟩
    · obtain ⟨tok2, htok2ne, htok2cs, _, _⟩ := number_some r2' [] v2 hnum2
      rw [List.append_nil] at htok2cs
      have hpostne : post.isEmpty = false := by
        rw [hpostEq, htok2cs]
        cases tok2 with
        | nil => exact absurd rfl htok2ne
        | cons a b => rfl
      rw [hpostne] at hendT
      simp only [Bool.false_eq_true, if_false] at hendT
      rw [hendT] at hend
      obtain ⟨e, hev, hpe⟩ := parseEndVal_some_ok post endv hend
      have hev2 : e = v2 := tok_value_agree post v2 e (by rw [hpostEq]; exact hnum2) hpe
      rw [hev, hev2] at hcnt
      rw [hpend] at hcnt2
      rw [hsepEq, hstv] at hcnt
      rw [hstv2] at hcnt2
      have hceq := count_agree p.mode v1 (some v2) r1.count r2.count hcnt hcnt2
      have hs12 : r1.start = r2.start := by rw [hstv, hstv2]
      obtain ⟨rs1, rc1⟩ := r1
      obtain ⟨rs2, rc2⟩ := r2
      simp only [Range.mk.injEq]
      exact ⟨hs12, hceq⟩
  · -- no start number: the input begins with the separator
    next hn =>
    obtain ⟨r2', hcs2, hsepP, hps, hrest, hcase⟩ := parseSepEnd_some none cs rest0 p hpp
    have hpre : pre = [] := by
      rw [hpredef, hcs2]
      exact takeWhile_nil_of_head _ _ (by simp [hsepP])
    have hsp : sep :: post = p.mode :: r2' := by
      have hx := hcs.symm.trans hcs2
      rw [hpre] at hx
      simpa using hx
    simp only [List.cons.injEq] at hsp
    obtain ⟨hsepEq, hpostEq⟩ := hsp
    rw [hpre] at hstT
    simp only [List.isEmpty_nil, if_true] at hstT
    rw [hstT] at hst
    have hstv : r1.start = 0 := by
      unfold parseStartVal at hst
      simp only [Except.ok.injEq] at hst
      exact hst.symm
    have hstv2 : r2.start = 0 := by rw [hstart2, hps]; rfl
    rcases hcase with ⟨hnum2none, hpendnone, hr2nil⟩ | ⟨v2, hnum2, hpend⟩
    · have hpost : post = [] := by rw [hpostEq, hr2nil]
      rw [hpost] at hendT
      simp only [List.isEmpty_nil, if_true] at hendT
      rw [hendT] at hend
      have hev : endv = none := by
        unfold parseEndVal at hend
        simp only [Except.ok.injEq] at hend
        exact hend.symm
      rw [hev] at hcnt
      rw [hpendnone] at hcnt2
      have hc1 := (mainCount_ok _ _ _ _ hcnt).1 rfl
      have hc2 := (nomCount_ok _ _ _ _ hcnt2).1 rfl
      have hs12 : r1.start = r2.start := by rw [hstv, hstv2]
      have hc12 : r1.count = r2.count := by rw [hc1, hc2]
      obtain ⟨rs1, rc1⟩ := r1
      obtain ⟨rs2, rc2⟩ := r2
      simp only [Range.mk.injEq]
      exact ⟨hs12, hc12⟩
    · obtain ⟨tok2, htok2ne, htok2cs, _, _⟩ := number_some r2' [] v2 hnum2
      rw [List.append_nil] at htok2cs
      have hpostne : post.isEmpty = false := by
        rw [hpostEq, htok2cs]
        cases tok2 with
        | nil => exact absurd rfl htok2ne
        | cons a b => rfl
      rw [hpostne] at hendT
      simp only [Bool.false_eq_true, if_false] at hendT
      rw [hendT] at hend
      obtain ⟨e, hev, hpe⟩ := parseEndVal_some_ok post endv hend
      have hev2 : e = v2 := tok_value_agree post v2 e (by rw [hpostEq]; exact hnum2) hpe
      rw [hev, hev2] at hcnt
      rw [hpend] at hcnt2
      rw [hsepEq, hstv] at hcnt
      rw [hstv2] at hcnt2
      have hceq := count_agree p.mode 0 (some v2) r1.count r2.count hcnt hcnt2
      have hs12 : r1.start = r2.start := by rw [hstv, hstv2]
      obtain ⟨rs1, rc1⟩ := r1
      obtain ⟨rs2, rc2⟩ := r2
      simp only [Range.mk.injEq]
      exact ⟨hs12, hceq⟩

/-- C3 counterexample: the two parsers are not equivalent — on `"0X1+"`
the regex parser reports a malformed range (its regex knows only the
lowercase `0x`), while the nom parser accepts the `0X` prefix and
succeeds. -/
theorem parsers_disagree_on_0X :
    mainFromStr ['0', 'X', '1', '+'] = .error .malformed
    ∧ nomFromStr ['0', 'X', '1', '+'] = .ok ⟨1, none⟩ := by
  constructor <;> decide

theorem parsers_agree_on_success_witness :
    mainFromStr ['7', '-', '9'] = .ok ⟨7, some 3⟩ ∧
      nomFromStr ['7', '-', '9'] = .ok ⟨7, some 3⟩ ∧
      (⟨7, some 3⟩ : Range) = ⟨7, some 3⟩ :=
  ⟨by decide, by decide,
    parsers_agree_on_success ['7', '-', '9'] ⟨7, some 3⟩ ⟨7, some 3⟩ (by decide) (by decide)⟩

/-- C5 (amended): hex-literal grammar, per implementation.  The nom
parser's `0x`/`0X` prefix is case-insensitive (both spellings run the
same tail parser), and in `main.rs` every underscore — anywhere, in any
count — is stripped before conversion (`parse_number` is invariant under
pre-stripping).  Hex digits themselves are case-insensitive in both
parsers, and consecutive underscores inside a digit run are accepted by
both, as the concrete conjuncts show on `"0x1__2+"` and `"0xaB-0xAb"`.
(The claim's full statement is false: the regex parser rejects the `0X`
spelling and the nom parser rejects an underscore before the first
digit — see the counterexample.) -/
theorem hex_literal_grammar :
    (∀ rest, hex ('0' :: 'x' :: rest) = hex ('0' :: 'X' :: rest))
    ∧ (∀ t, parse_number t = parse_number (t.filter (fun c => c ≠ '_')))
    ∧ mainFromStr ['0', 'x', '1', '_', '_', '2', '+'] = .ok ⟨18, none⟩
    ∧ nomFromStr ['0', 'x', '1', '_', '_', '2', '+'] = .ok ⟨18, none⟩
    ∧ mainFromStr ['0', 'x', 'a', 'B', '-', '0', 'x', 'A', 'b'] = .ok ⟨171, some 1⟩
    ∧ nomFromStr ['0', 'x', 'a', 'B', '-', '0', 'x', 'A', 'b'] = .ok ⟨171, some 1⟩ := by
  refine ⟨fun rest => rfl, fun t => ?_, by decide, by decide, by decide, by decide⟩
  unfold parse_number
  rw [List.filter_filter]
  simp

/-- C5 counterexample: the claimed grammar fails in both directions —
`main.rs` rejects the uppercase prefix (`"0X12+"` is malformed), and the
nom parser rejects an underscore that precedes the first hex digit
(`"0x_1+"` is a parse error). -/
theorem hex_grammar_counterexample :
    mainFromStr ['0', 'X', '1', '2', '+'] = .error .malformed
    ∧ nomFromStr ['0', 'x', '_', '1', '+'] = .error .parseError := by
  constructor <;> decide

/-- C6: parsing fails with the byte-count-overflow error exactly when the
inclusive form's `end - start + 1` overflows `u64`, which — since parsed
numbers are at most `u64::MAX` and the checked subtraction must succeed
first (`end ≥ start`) — happens exactly when `start` parses to 0 and
`end` to `u64::MAX`; `"0-0xffffffffffffffff"` is such an input, in both
implementations. -/
theorem byte_count_overflow_exact :
    mainFromStr "0-0xffffffffffffffff".toList = .error .byteCountOverflow
    ∧ nomFromStr "0-0xffffffffffffffff".toList = .error .overflow
    ∧ (∀ cs, mainFromStr cs = .error .byteCountOverflow ↔
        ∃ startTok t, regexCaptures cs = some (startTok, '-', some t) ∧
          parseStartVal startTok = .ok 0 ∧ parse_number t = some U64_MAX)
    ∧ (∀ cs, nomFromStr cs = .error .overflow ↔
        ∃ rest p, parse_range_pieces cs = some (rest, p) ∧
          p.mode = '-' ∧ p.pstart.getD 0 = 0 ∧ p.pend = some U64_MAX) := by
  have hmc : mainCount '-' 0 (some U64_MAX) = .error .byteCountOverflow := by decide
  have hnc : nomCount '-' 0 (some U64_MAX) = .error .overflow := by decide
  refine ⟨by decide, by decide, ?_, ?_⟩
  · intro cs
    constructor
    · intro h
      unfold mainFromStr at h
      split at h
      · exact absurd h (by simp)
      · next startTok sep endTok hcap =>
        split at h
        · next e he =>
          simp only [Except.error.injEq] at h
          exact absurd (h ▸ parseStartVal_error _ _ he) (by simp)
        · next st hst =>
          split at h
          · exact absurd h (by simp)
          · next hI =>
            split at h
            · next e he =>
              simp only [Except.error.injEq] at h
              exact absurd (h ▸ parseEndVal_error _ _ he) (by simp)
            · next endv hend =>
              split at h
              · next e he =>
                simp only [Except.error.injEq] at h
                subst h
                obtain ⟨hsep, eV, hendv, hle, hbig⟩ := mainCount_error_overflow sep st endv he
                subst hsep
                subst hendv
                obtain ⟨t, hTok, hpn⟩ := parseEndVal_ok_some endTok eV hend
                subst hTok
                have hb := parse_number_le t eV hpn
                have h0 : st = 0 := by omega
                have hMax : eV = U64_MAX := by omega
                subst h0; subst hMax
                exact ⟨startTok, t, hcap, hst, hpn⟩
              · exact absurd h (by simp)
    · rintro ⟨startTok, t, hcap, hst, hpn⟩
      unfold mainFromStr
      rw [hcap]
      simp only [hst]
      rw [if_neg (by simp [I64_MAX])]
      simp only [parseEndVal, hpn]
      rw [hmc]
  · intro cs
    constructor
    · intro h
      unfold nomFromStr at h
      split at h
      · exact absurd h (by simp)
      · next rest0 p hcap =>
        split at h
        · exact absurd h (by simp)
        · next hI =>
          split at h
          · next e he =>
            simp only [Except.error.injEq] at h
            subst h
            obtain ⟨hmode, eV, hendv, hle, hbig⟩ := nomCount_error_overflow _ _ _ he
            obtain ⟨_, _, _, hpendle⟩ := parse_range_pieces_some cs rest0 p hcap
            have hb := hpendle eV hendv
            have h0 : p.pstart.getD 0 = 0 := by omega
            have hMax : eV = U64_MAX := by omega
            exact ⟨rest0, p, hcap, hmode, h0, hMax ▸ hendv⟩
          · exact absurd h (by simp)
    · rintro ⟨rest0, p, hcap, hmode, hst0, hpend⟩
      unfold nomFromStr
      rw [hcap]
      dsimp only
      rw [hst0, if_neg (by simp [I64_MAX]), hmode, hpend, hnc]

/-! ### Positioner lemmas -/

/-- `take` is insensitive to request lengths beyond the list. -/
theorem take_eq_take_min {α : Type} (l : List α) (n : Nat) :
    l.take n = l.take (min n l.length) := by
  rcases Nat.le_total n l.length with h | h
  · rw [Nat.min_eq_left h]
  · rw [Nat.min_eq_right h, List.take_of_length_le h, List.take_length]

/-- Splitting a `take` at an intermediate point. -/
theorem take_add_split {α : Type} (m n : Nat) (l : List α) :
    l.take (m + n) = l.take m ++ (l.drop m).take n := by
  induction m generalizing l with
  | zero => simp
  | succ m ih =>
    cases l with
    | nil => simp
    | cons c t =>
      rw [show m + 1 + n = (m + n) + 1 by omega]
      simp only [List.take_succ_cons, List.drop_succ_cons, List.cons_append, List.cons.injEq]
      exact ⟨trivial, ih t⟩

/-- Closed form of the `io_copy` loop: regardless of the interruption
schedule and chunking, it transfers exactly the limited prefix of the
stream (everything, when unlimited) and leaves the rest. -/
theorem io_copy_model_eq (sched : List Bool) (limit : Option Nat) (rem : List Nat) :
    io_copy_model sched limit rem =
      (match limit with
       | some l => (rem.take l, rem.drop l)
       | none => (rem, [])) := by
  induction sched, limit, rem using io_copy_model.induct with
  | case1 sched limit rem ih => rw [io_copy_model.eq_1]; exact ih
  | case2 sched limit rem hns cap chunk h0 =>
    unfold chunk cap at h0
    cases limit with
    | none =>
      dsimp only at h0
      simp only [List.length_take] at h0
      have hrem : rem = [] := by
        have : rem.length = 0 := by
          have hb : 0 < BUF_SIZE := by norm_num [BUF_SIZE]
          omega
        exact List.eq_nil_of_length_eq_zero this
      subst hrem
      rw [io_copy_model.eq_3 _ _ hns]
      simp
    | some l =>
      dsimp only at h0
      simp only [List.length_take] at h0
      rw [io_copy_model.eq_2 _ _ _ hns]
      rw [dif_pos (by simp only [List.length_take]; exact h0)]
      have h01 : l = 0 ∨ rem = [] := by
        have hb : 0 < BUF_SIZE := by norm_num [BUF_SIZE]
        rcases Nat.eq_zero_or_pos l with hl | hl
        · exact .inl hl
        · refine .inr (List.eq_nil_of_length_eq_zero ?_)
          omega
      rcases h01 with rfl | rfl <;> simp
  | case3 sched limit rem hns cap chunk h0 ih =>
    unfold chunk cap at h0 ih
    cases limit with
    | none =>
      dsimp only at h0 ih
      rw [io_copy_model.eq_3 _ _ hns]
      rw [dif_neg h0]
      rw [ih]
      dsimp only
      simp only [Prod.mk.injEq]
      refine ⟨?_, trivial⟩
      rw [List.length_take, take_eq_take_min rem BUF_SIZE]
      exact List.take_append_drop _ rem
    | some l =>
      dsimp only at h0 ih
      rw [io_copy_model.eq_2 _ _ _ hns]
      rw [dif_neg h0]
      rw [ih]
      dsimp only
      simp only [Prod.mk.injEq, List.length_take, List.drop_drop]
      constructor
      · rw [take_eq_take_min rem (BUF_SIZE ⊓ l), ← take_add_split]
        congr 1
        omega
      · congr 1
        omega

/-- Whatever the seek capabilities (absent other seek faults), the
prepared source is the stream positioned at `start`, bounded by `count`. -/
theorem prepare_input_snd (r : Range) (data : List Nat) (skb : Bool) (s1 : List Bool) :
    (prepare_input r ⟨data, skb, false⟩ s1).2 = .ok ⟨r.count, data.drop r.start⟩ := by
  unfold prepare_input
  by_cases h : r.start = 0
  · rw [if_neg (show ¬r.start ≠ 0 from fun hc => hc h)]
    simp [h]
  · rw [if_pos h]
    unfold seekCurrent
    cases skb with
    | true => simp
    | false =>
      simp only [Bool.false_eq_true, if_false]
      rw [io_copy_model_eq]

/-- Draining the prepared source yields the spec's window. -/
theorem drainSource_window (r : Range) (data : List Nat) (s2 : List Bool) :
    drainSource s2 ⟨r.count, data.drop r.start⟩ = specWindow r data := by
  unfold drainSource specWindow
  rw [io_copy_model_eq]
  cases r.count <;> rfl

/-- C2: for every successfully parsed range and every input stream, the
positioner-prepared source yields exactly the selected window — the drop
of the first `start` bytes, truncated to `count` when present, the whole
remainder when absent — so at most `count` bytes are ever produced, the
first byte produced is logical offset `start` of the stream, and the
produced bytes are identical whether the handle seeks or the
skip-by-consuming fallback runs. -/
theorem prepared_window_contract :
    ∀ (cs : List Char) (r : Range) (data : List Nat) (skb : Bool) (s1 s2 : List Bool),
      mainFromStr cs = .ok r →
      preparedBytes r ⟨data, skb, false⟩ s1 s2 = .ok (specWindow r data)
      ∧ (∀ k, r.count = some k → (specWindow r data).length ≤ k)
      ∧ (r.count = none → specWindow r data = data.drop r.start)
      ∧ preparedBytes r ⟨data, true, false⟩ s1 s2 = preparedBytes r ⟨data, false, false⟩ s1 s2
      ∧ (∀ k, r.count = some k → k ≠ 0 → r.start < data.length →
          (specWindow r data).head? = data[r.start]?) := by
  intro cs r data skb s1 s2 hok
  have hpb : ∀ b, preparedBytes r ⟨data, b, false⟩ s1 s2 = .ok (specWindow r data) := by
    intro b
    unfold preparedBytes
    rw [prepare_input_snd]
    dsimp only
    rw [drainSource_window]
  refine ⟨hpb skb, ?_, ?_, by rw [hpb, hpb], ?_⟩
  · intro k hck
    unfold specWindow
    rw [hck]
    dsimp only
    rw [List.length_take]
    omega
  · intro hck
    unfold specWindow
    rw [hck]
  · intro k hck hk hlt
    unfold specWindow
    rw [hck]
    dsimp only
    obtain ⟨k', rfl⟩ : ∃ k', k = k' + 1 := ⟨k - 1, by omega⟩
    rw [List.drop_eq_getElem_cons hlt, List.take_succ_cons, List.head?_cons,
      List.getElem?_eq_getElem hlt]

theorem prepared_window_contract_witness :
    mainFromStr ['2', '+', '3'] = .ok ⟨2, some 3⟩ ∧
      preparedBytes ⟨2, some 3⟩ ⟨[10, 11, 12, 13, 14, 15, 16], false, false⟩ [true] [] =
        .ok (specWindow ⟨2, some 3⟩ [10, 11, 12, 13, 14, 15, 16]) :=
  ⟨by decide,
    (prepared_window_contract ['2', '+', '3'] ⟨2, some 3⟩ [10, 11, 12, 13, 14, 15, 16]
      false [true] [] (by decide)).1⟩

/-- C4: positioning policy.  With `start = 0` no positioning action is
attempted at all; with `start ≠ 0` a relative seek of `start` bytes is
always attempted first; a seekable fault-free handle positions by that
seek alone (no skip); exactly when the handle rejects seeking
(pipe/FIFO), the fallback reads and discards `start` bytes — exactly
`start` when the stream has them — leaving the stream at the same
position the seek would have; the discard loop's result is independent of
which reads get interrupted (they are retried); any other seek failure is
returned as a positioning error, without any skip. -/
theorem positioning_policy :
    ∀ (r : Range) (data : List Nat) (ss : List Bool),
      (r.start = 0 → ∀ skb sf, (prepare_input r ⟨data, skb, sf⟩ ss).1 = [])
      ∧ (r.start ≠ 0 → ∀ skb sf,
          (prepare_input r ⟨data, skb, sf⟩ ss).1.head? = some (.seek r.start))
      ∧ (r.start ≠ 0 →
          prepare_input r ⟨data, true, false⟩ ss =
            ([.seek r.start], .ok ⟨r.count, data.drop r.start⟩))
      ∧ (r.start ≠ 0 →
          prepare_input r ⟨data, false, false⟩ ss =
            ([.seek r.start, .skip (min r.start data.length)],
              .ok ⟨r.count, data.drop r.start⟩))
      ∧ (r.start ≠ 0 → r.start ≤ data.length →
          (prepare_input r ⟨data, false, false⟩ ss).1 = [.seek r.start, .skip r.start])
      ∧ io_copy_model ss (some r.start) data = io_copy_model [] (some r.start) data
      ∧ (r.start ≠ 0 →
          prepare_input r ⟨data, true, true⟩ ss = ([.seek r.start], .error .positioning)) := by
  intro r data ss
  refine ⟨?_, ?_, ?_, ?_, ?_, ?_, ?_⟩
  · intro h0 skb sf
    unfold prepare_input
    rw [if_neg (show ¬r.start ≠ 0 from fun hc => hc h0)]
  · intro h0 skb sf
    unfold prepare_input
    rw [if_pos h0]
    unfold seekCurrent
    cases skb <;> cases sf <;> simp
  · intro h0
    unfold prepare_input
    rw [if_pos h0]
    unfold seekCurrent
    simp
  · intro h0
    unfold prepare_input
    rw [if_pos h0]
    unfold seekCurrent
    simp only [Bool.false_eq_true, if_false]
    rw [io_copy_model_eq]
    dsimp only
    rw [List.length_take]
  · intro h0 hle
    unfold prepare_input
    rw [if_pos h0]
    unfold seekCurrent
    simp only [Bool.false_eq_true, if_false]
    rw [io_copy_model_eq]
    dsimp only
    rw [List.length_take]
    have hmin : min r.start data.length = r.start := by omega
    rw [hmin]
  · rw [io_copy_model_eq, io_copy_model_eq]
  · intro h0
    unfold prepare_input
    rw [if_pos h0]
    unfold seekCurrent
    simp

theorem positioning_policy_witness :
    (Range.mk 2 none).start ≠ 0 ∧
      prepare_input ⟨2, none⟩ ⟨[5, 6, 7], false, false⟩ [true, false] =
        ([.seek 2, .skip (min 2 ([5, 6, 7] : List Nat).length)],
          .ok ⟨none, ([5, 6, 7] : List Nat).drop 2⟩) :=
  ⟨by decide,
    (positioning_policy ⟨2, none⟩ [5, 6, 7] [true, false]).2.2.2.1 (by decide)⟩

theorem byte_count_overflow_exact_witness :
    (∃ startTok t,
        regexCaptures "0-0xffffffffffffffff".toList = some (startTok, '-', some t) ∧
        parseStartVal startTok = .ok 0 ∧ parse_number t = some U64_MAX) ∧
      mainFromStr "0-0xffffffffffffffff".toList = .error .byteCountOverflow :=
  ⟨⟨some ['0'], "0xffffffffffffffff".toList, by decide, by decide, by decide⟩,
    (byte_count_overflow_exact.2.2.1 "0-0xffffffffffffffff".toList).mpr
      ⟨some ['0'], "0xffffffffffffffff".toList, by decide, by decide, by decide⟩⟩

end Bcut
